import Mathlib

/-!
Verification of the web3 context parser (Solidity call-graph analyzer).

This file is a shallow embedding, in Lean 4, of the JavaScript sources:
  - src/evm/dependency-resolver.js   (import-path classification and fetching)
  - src/evm/interface-detector.js    (regex heuristics for interface calls)
  - src/unnamed/part_001             (implementation resolver)
  - src/evm/call-tree-builder.js     (bounded call-tree expansion)
  - src/evm/solidity-analyzer.js     (dependency ingestion loop)

Modelling conventions:
  - JavaScript `Set` objects (insertion-ordered, duplicate-free) are modelled
    as `List String` manipulated only through `addToSet`.
  - JavaScript `Map` objects are association lists with last-write-wins update.
  - `undefined`/missing fields are `Option.none`; JS truthiness of a string
    field (`s &&` ...) is "is `some` and non-empty".
  - The network (`axios.get` inside `fetchSourceCode`) is an oracle
    `fetch : String → Option FileData`; the Solidity front-end
    (`@solidity-parser/parser` plus the AST visitor `analyzeContract`) is an
    oracle `parse : String → Option (List Fn × List String)` returning the
    extracted entities and import paths, `none` being a ParseError.  Both are
    external collaborators in the specification (its section 6).
  - Numbers that the code divides (match ratios, success rates) are `ℚ`.
-/

/-! ### Character and string utilities mirroring the JS string/regex primitives -/

/-- JS regex `\w` character class: ASCII letters, digits, underscore. -/
def isWordChar (c : Char) : Bool := c.isAlphanum || c == '_'

/-- JS regex `\s` character class restricted to the ASCII whitespace that
occurs in source files. -/
def isSpaceChar (c : Char) : Bool := c == ' ' || c == '\t' || c == '\n' || c == '\r'

/-- JS `String.prototype.includes`: `sub` occurs contiguously in `s`. -/
def strContainsB (s sub : String) : Bool :=
  (List.range (s.data.length + 1)).any (fun i => sub.data.isPrefixOf (s.data.drop i))

/-- The single-quote character (written via its code point). -/
def squote : Char := Char.ofNat 39

/-- Prefix test on the character lists (JS `String.prototype.startsWith`);
used instead of the byte-position core function so that proofs can evaluate. -/
def strStartsWithB (s pre : String) : Bool := pre.data.isPrefixOf s.data

/-- Suffix test on the character lists (JS `String.prototype.endsWith`). -/
def strEndsWithB (s suf : String) : Bool := suf.data.isSuffixOf s.data

/-- Drop the first `n` characters (JS `substring(n)` on these ASCII inputs). -/
def strDropB (s : String) (n : Nat) : String := String.mk (s.data.drop n)

/-- ASCII lower-casing of one character. -/
def lowerChar (c : Char) : Char :=
  if 'A' ≤ c ∧ c ≤ 'Z' then Char.ofNat (c.toNat + 32) else c

/-- ASCII `toLowerCase`. -/
def strToLowerB (s : String) : String := String.mk (s.data.map lowerChar)

/-- Split a character list at a separator character. -/
def splitOnCharL (sep : Char) : List Char → List (List Char)
  | [] => [[]]
  | c :: cs =>
    let r := splitOnCharL sep cs
    if c == sep then [] :: r
    else
      match r with
      | [] => [[c]]
      | h :: t => (c :: h) :: t

/-- JS `split('/')`. -/
def splitSlashes (s : String) : List String := (splitOnCharL '/' s.data).map String.mk

/-- JS `array.join('/')`. -/
def joinSlashes : List String → String
  | [] => ""
  | [x] => x
  | x :: xs => x ++ "/" ++ joinSlashes xs

/-- JS `dependencyPath.replace(/^["']|["']$/g, '')`: strip one leading and one
trailing quote character. -/
def stripQuotes (s : String) : String :=
  let l1 := match s.data with
    | c :: cs => if c == '"' || c == squote then cs else c :: cs
    | [] => []
  let l2 := match l1.getLast? with
    | some c => if c == '"' || c == squote then l1.dropLast else l1
    | none => l1
  String.mk l2

/-- Helper of `collapseSlashesL`: the flag records whether the previous kept
character was a slash (so further slashes of the same run are dropped). -/
def collapseSlashesAux : Bool → List Char → List Char
  | _, [] => []
  | prevSlash, c :: cs =>
    if c == '/' then
      if prevSlash then collapseSlashesAux true cs
      else c :: collapseSlashesAux true cs
    else c :: collapseSlashesAux false cs

/-- JS `.replace(/\/+/g, '/')`: collapse every run of slashes to one slash. -/
def collapseSlashesL (l : List Char) : List Char := collapseSlashesAux false l

/-- JS `.replace(/^\//, '')`: drop a single leading slash. -/
def dropLeadingSlash (s : String) : String :=
  match s.data with
  | c :: cs => if c == '/' then String.mk cs else s
  | [] => s

/-- The per-strategy normalization in `resolveDependencyPaths`: collapse
slashes, drop a leading slash, and append the `.sol` extension if missing. -/
def normalizeStrategyPath (p : String) : String :=
  let normalized := dropLeadingSlash (String.mk (collapseSlashesL p.data))
  if strEndsWithB normalized ".sol" then normalized else normalized ++ ".sol"

/-- Node `path.basename`: last path segment, ignoring trailing slashes. -/
def basenameOf (s : String) : String :=
  let t := String.mk ((s.data.reverse.dropWhile (fun c => c == '/')).reverse)
  ((splitSlashes t).getLast?).getD ""

/-- JS `dependencyPath.split('/').pop()` (no trailing-slash stripping). -/
def lastSegmentOf (s : String) : String := ((splitSlashes s).getLast?).getD ""

/-- JS `str.replace(pat, repl)` with a plain-string pattern: replace the first
occurrence only. -/
def replaceFirstL (pat repl : List Char) : List Char → List Char
  | [] => []
  | c :: cs =>
    if pat.isPrefixOf (c :: cs) ∧ pat ≠ [] then repl ++ (c :: cs).drop pat.length
    else c :: replaceFirstL pat repl cs

/-- String version of `replaceFirstL`. -/
def replaceFirst (s pat repl : String) : String :=
  String.mk (replaceFirstL pat.data repl.data s.data)


/-! ### Dependency resolver (src/evm/dependency-resolver.js) -/

/-- The `externalPatterns` regex list of `isExternalDependency`; every pattern
is anchored at the start, so each is a prefix test (`/^https?:\/\//` is the
two prefixes `http://` and `https://`). -/
def externalPatternsHold (p : String) : Bool :=
  strStartsWithB p "@openzeppelin/" || strStartsWithB p "@chainlink/" ||
  strStartsWithB p "hardhat/" || strStartsWithB p "node_modules/" ||
  strStartsWithB p "npm:" || strStartsWithB p "http://" ||
  strStartsWithB p "https://" || strStartsWithB p "ipfs://"

/-- The `commonLibraries` table of `tryResolveCommonLibrariesSafe`, in object
insertion order. -/
def commonLibraries : List (String × String) :=
  [("solady/", "https://github.com/Vectorized/solady/blob/main/"),
   ("openzeppelin-contracts/", "https://github.com/OpenZeppelin/openzeppelin-contracts/blob/master/"),
   ("solmate/", "https://github.com/transmissions11/solmate/blob/main/"),
   ("forge-std/", "https://github.com/foundry-rs/forge-std/blob/master/"),
   ("chainlink/", "https://github.com/smartcontractkit/chainlink/blob/develop/"),
   ("uniswap/", "https://github.com/Uniswap/v3-core/blob/main/")]

/-- Strip a URL scheme, `none` when there is none (where JS `new URL` throws). -/
def stripScheme (u : String) : Option String :=
  if strStartsWithB u "https://" then some (strDropB u 8)
  else if strStartsWithB u "http://" then some (strDropB u 7)
  else none

/-- `convertRawToGitHubUrl`: rewrite a `raw.githubusercontent.com` URL into a
`github.com` blob URL, returning the input unchanged otherwise (including the
catch branch for unparseable URLs). -/
def convertRawToGitHubUrl (rawUrl : String) : String :=
  if strContainsB rawUrl "raw.githubusercontent.com" then
    match stripScheme rawUrl with
    | none => rawUrl
    | some rest =>
      let segs := splitSlashes rest
      let pathParts := "" :: segs.tail
      if 4 ≤ pathParts.length then
        let owner := pathParts.getD 1 ""
        let repo := pathParts.getD 2 ""
        let branch := pathParts.getD 3 ""
        let filePath := joinSlashes (pathParts.drop 4)
        "https://github.com/" ++ owner ++ "/" ++ repo ++ "/blob/" ++ branch ++ "/" ++ filePath
      else rawUrl
  else rawUrl

/-- `tryMultipleCommonRepos`: cross product of four repositories with three
directory guesses. -/
def tryMultipleCommonRepos (dependencyPath : String) : List String :=
  let commonRepos :=
    ["https://github.com/OpenZeppelin/openzeppelin-contracts/blob/master/",
     "https://github.com/Vectorized/solady/blob/main/",
     "https://github.com/transmissions11/solmate/blob/main/",
     "https://github.com/foundry-rs/forge-std/blob/master/"]
  (commonRepos.map (fun baseUrl =>
    [baseUrl ++ dependencyPath,
     baseUrl ++ "src/" ++ dependencyPath,
     baseUrl ++ "contracts/" ++ dependencyPath])).flatten

/-- `resolveWellKnownContracts`: hard-coded canonical locations for well-known
basenames. -/
def resolveWellKnownContracts (dependencyPath : String) : List String :=
  let fileName := lastSegmentOf dependencyPath
  if fileName == "Ownable.sol" then
    ["https://github.com/OpenZeppelin/openzeppelin-contracts/blob/master/contracts/access/Ownable.sol",
     "https://github.com/Vectorized/solady/blob/main/src/auth/Ownable.sol"]
  else if fileName == "ERC20.sol" then
    ["https://github.com/OpenZeppelin/openzeppelin-contracts/blob/master/contracts/token/ERC20/ERC20.sol",
     "https://github.com/transmissions11/solmate/blob/main/src/tokens/ERC20.sol"]
  else if fileName == "ERC721.sol" then
    ["https://github.com/OpenZeppelin/openzeppelin-contracts/blob/master/contracts/token/ERC721/ERC721.sol",
     "https://github.com/transmissions11/solmate/blob/main/src/tokens/ERC721.sol"]
  else if fileName == "ReentrancyGuard.sol" then
    ["https://github.com/OpenZeppelin/openzeppelin-contracts/blob/master/contracts/utils/ReentrancyGuard.sol",
     "https://github.com/transmissions11/solmate/blob/main/src/utils/ReentrancyGuard.sol"]
  else if fileName == "SafeTransferLib.sol" then
    ["https://github.com/transmissions11/solmate/blob/main/src/utils/SafeTransferLib.sol",
     "https://github.com/Vectorized/solady/blob/main/src/utils/SafeTransferLib.sol"]
  else []

/-- `tryResolveCommonLibrariesSafe`: direct mapping for a known library prefix
(first matching table entry), otherwise the well-known-contract table. -/
def tryResolveCommonLibrariesSafe (dependencyPath : String) : List String :=
  match commonLibraries.find? (fun pr => strStartsWithB dependencyPath pr.1) with
  | some pr =>
    if pr.2 ≠ "" then
      [convertRawToGitHubUrl (pr.2 ++ strDropB dependencyPath pr.1.length)]
    else tryMultipleCommonRepos dependencyPath
  | none =>
    let wellKnownContracts := resolveWellKnownContracts dependencyPath
    if wellKnownContracts.length > 0 then wellKnownContracts else []

/-- `tryResolveCommonLibraries` simply delegates to the safe version. -/
def tryResolveCommonLibraries (dependencyPath : String) : List String :=
  tryResolveCommonLibrariesSafe dependencyPath

/-- `isExternalDependency`: true exactly on the external patterns (the
common-library lookup in its body influences nothing, both remaining
branches return false, as in the source). -/
def isExternalDependency (dependencyPath : String) : Bool :=
  if externalPatternsHold dependencyPath then true
  else
    let commonLibraryUrls := tryResolveCommonLibrariesSafe dependencyPath
    if commonLibraryUrls.length > 0 then false else false

/-- Repository coordinates parsed from the seed GitHub URL. -/
structure RepoInfo where
  owner : String
  repo : String
  branch : String
  basePath : String
deriving DecidableEq, Repr

/-- `resolveRelativePath`: resolve `..`/`.` segments against the base path. -/
def resolveRelativePath (relativePath basePath : String) : String :=
  if basePath == "" then relativePath
  else
    let basePathParts := splitSlashes basePath
    let relativePathParts := splitSlashes relativePath
    let resolvedParts := relativePathParts.foldl (fun acc part =>
      if part == ".." then acc.dropLast
      else if part == "." then acc
      else acc ++ [part]) basePathParts
    joinSlashes resolvedParts

/-- `resolveDependencyPaths`: the ordered candidate-location list for an import
path.  Strategy order, per-strategy normalization and the order-preserving
dedup (`[...new Set(...)]`, first occurrence kept) follow the source. -/
def resolveDependencyPaths (dependencyPath : String) (baseRepoInfo : Option RepoInfo) :
    List String :=
  match baseRepoInfo with
  | none => []
  | some info =>
    let cleanPath := stripQuotes dependencyPath
    let commonLibraryUrls := tryResolveCommonLibraries cleanPath
    if commonLibraryUrls.length > 0 then commonLibraryUrls
    else if isExternalDependency cleanPath then []
    else
      let strategies : List (Option String) :=
        [some (if info.basePath ≠ "" then info.basePath ++ "/" ++ cleanPath else cleanPath),
         some cleanPath,
         some ("contracts/" ++ cleanPath),
         some ("src/" ++ cleanPath),
         some ("lib/" ++ cleanPath),
         (if strStartsWithB cleanPath "./" then some (strDropB cleanPath 2) else none),
         (if strStartsWithB cleanPath "../" then some (resolveRelativePath cleanPath info.basePath) else none),
         (if ¬ (strStartsWithB cleanPath "contracts/") then some ("contracts/" ++ cleanPath) else none),
         some ("contracts/interfaces/" ++ basenameOf cleanPath),
         some ("contracts/utils/" ++ basenameOf cleanPath)]
      let strategyPaths := (strategies.filterMap id).filter (fun s => s ≠ "")
      let potentialPaths := strategyPaths.map (fun pathStrategy =>
        "https://github.com/" ++ info.owner ++ "/" ++ info.repo ++ "/blob/" ++ info.branch ++
          "/" ++ normalizeStrategyPath pathStrategy)
      potentialPaths.eraseDups

/-- Result of a successful `fetchSourceCode`. -/
structure FileData where
  content : String
  filename : String
  url : String
deriving DecidableEq, Repr

/-- The resolver's per-run memo state (`processedDependencies`,
`failedDependencies` are JS Sets, `resolvedFiles` a JS Map). -/
structure ResolverState where
  processedDependencies : List String
  failedDependencies : List String
  resolvedFiles : List (String × FileData)
deriving DecidableEq, Repr

/-- JS `Set.prototype.add`: insertion-ordered, duplicate-free. -/
def addToSet (s : List String) (x : String) : List String :=
  if x ∈ s then s else s ++ [x]

/-- JS `Map.prototype.set`: overwrite in place or append. -/
def setMapEntry (m : List (String × FileData)) (k : String) (v : FileData) :
    List (String × FileData) :=
  if m.any (fun e => e.1 == k) then m.map (fun e => if e.1 == k then (k, v) else e)
  else m ++ [(k, v)]

/-- The candidate loop of `tryFetchDependency`: try URLs in order, stop at the
first success; also returns the list of URLs actually attempted. -/
def fetchFirst (fetch : String → Option FileData) :
    List String → Option (String × FileData) × List String
  | [] => (none, [])
  | u :: us =>
    match fetch u with
    | some fd => (some (u, fd), [u])
    | none =>
      let r := fetchFirst fetch us
      (r.1, u :: r.2)

/-- `tryFetchDependency` over the fetch oracle: memo check, external check,
candidate generation, ordered fetching, and memo update.  The third component
is the list of URLs for which a fetch was attempted. -/
def tryFetchDependency (fetch : String → Option FileData) (st : ResolverState)
    (dependencyPath : String) (baseRepoInfo : Option RepoInfo) :
    Option FileData × ResolverState × List String :=
  if dependencyPath ∈ st.processedDependencies ∨ dependencyPath ∈ st.failedDependencies then
    (none, st, [])
  else if isExternalDependency dependencyPath then
    (none, { st with failedDependencies := addToSet st.failedDependencies dependencyPath }, [])
  else
    let potentialUrls := resolveDependencyPaths dependencyPath baseRepoInfo
    if potentialUrls.length = 0 then
      (none, { st with failedDependencies := addToSet st.failedDependencies dependencyPath }, [])
    else
      match fetchFirst fetch potentialUrls with
      | (some (_, fd), attempts) =>
        (some fd,
         { st with
            processedDependencies := addToSet st.processedDependencies dependencyPath,
            resolvedFiles := setMapEntry st.resolvedFiles dependencyPath fd },
         attempts)
      | (none, attempts) =>
        (none, { st with failedDependencies := addToSet st.failedDependencies dependencyPath },
         attempts)

/-- `resolveDependencies`: batch loop over `tryFetchDependency`, splitting into
resolved file data and failed paths. -/
def resolveDependencies (fetch : String → Option FileData) (st : ResolverState)
    (dependencies : List String) (baseRepoInfo : Option RepoInfo) :
    List FileData × List String × ResolverState :=
  dependencies.foldl (fun acc dependency =>
    match tryFetchDependency fetch acc.2.2 dependency baseRepoInfo with
    | (some fd, s2, _) => (acc.1 ++ [fd], acc.2.1, s2)
    | (none, s2, _) => (acc.1, acc.2.1 ++ [dependency], s2)) ([], [], st)

/-! ### Entities produced by the analyzer (data model shared by all components) -/

/-- A function/event parameter as built by `extractParameters`. -/
structure Param where
  name : String
  type : String
  indexed : Bool
deriving DecidableEq, Repr

/-- A resolved call edge (`resolvedCalls` entry built in `generateReport`).
The JS `definition` field holds a reference to another function object; object
references are modelled as indices into a heap list of entities. -/
structure RCall where
  name : String
  arguments : Nat
  isExternal : Bool
  definition : Option Nat
deriving DecidableEq, Repr

/-- An entity of the analyzed program: a function, modifier, event or state
variable record as produced by `analyzeContract` / `extractFromAST`.  Fields
that JS leaves `undefined` on some entity kinds are `Option`s; `type` is
`some "event"` on events and `none` on plain analyzer functions. -/
structure Fn where
  name : String
  signature : Option String
  visibility : Option String
  stateMutability : Option String
  parameters : List Param
  returnParameters : List Param
  file : Option String
  type : Option String
  sourceCode : Option String
  resolvedCalls : Option (List RCall)
deriving DecidableEq, Repr

/-- JS truthiness of the `file` field: present and non-empty. -/
def fileTruthyStr (f : Fn) : Option String :=
  match f.file with
  | some s => if s ≠ "" then some s else none
  | none => none

/-- JS truthiness of the `sourceCode` field. -/
def sourceTruthy (f : Fn) : Bool :=
  match f.sourceCode with
  | some s => s ≠ ""
  | none => false

/-! ### Implementation resolver (src/unnamed/part_001) -/

/-- `isCompatibleSignature`: same name, same parameter count, element-wise
equal parameter type strings.  Return type, visibility and mutability do not
appear in the comparison. -/
def isCompatibleSignature (interfaceFunc implFunc : Fn) : Bool :=
  if interfaceFunc.name ≠ implFunc.name then false
  else
    let interfaceParams := interfaceFunc.parameters
    let implParams := implFunc.parameters
    if interfaceParams.length ≠ implParams.length then false
    else (interfaceParams.zip implParams).all (fun pr => pr.1.type == pr.2.type)

/-- `matchFunctions`: for each interface member, the first implementation
member with the same name and a compatible signature. -/
def matchFunctions (interfaceFunctions implementationFunctions : List Fn) :
    List (Fn × Fn) :=
  interfaceFunctions.filterMap (fun interfaceFunc =>
    (implementationFunctions.find? (fun impl =>
      impl.name == interfaceFunc.name && isCompatibleSignature interfaceFunc impl)).map
      (fun implFunc => (interfaceFunc, implFunc)))

/-- The number of interface members matched (`matchingFunctions.length`). -/
def matchedCount (interfaceFunctions implementationFunctions : List Fn) : Nat :=
  (matchFunctions interfaceFunctions implementationFunctions).length

/-- The match-ratio formula `matchedCount / max(interfaceMemberCount, 1)` used
by `findContractByName` (called `matchRatio` in the source). -/
def matchFrac (interfaceFunctions implementationFunctions : List Fn) : ℚ :=
  (matchedCount interfaceFunctions implementationFunctions : ℚ) /
    max interfaceFunctions.length 1

/-- The file-name test `f.file.includes(nm) || f.file === nm + ".sol" ||
f.file.endsWith("/" + nm + ".sol")` guarded by `f.file &&`. -/
def fileMatchesName (f : Fn) (nm : String) : Bool :=
  match fileTruthyStr f with
  | none => false
  | some file =>
    strContainsB file nm || file == nm ++ ".sol" || strEndsWithB file ("/" ++ nm ++ ".sol")

/-- `getInterfaceFunctions`: all entities whose file refers to the interface
name. -/
def getInterfaceFunctions (interfaceName : String) (allFunctions : List Fn) : List Fn :=
  allFunctions.filter (fun f => fileMatchesName f interfaceName)

/-- An implementation binding (`matchRatio` is the field `frac` here, a `ℚ`,
because the token sequence of that JS field name cannot be used verbatim). -/
structure Binding where
  contractName : String
  file : Option String
  functions : List Fn
  implementedFunctions : List (Fn × Fn)
  frac : ℚ
deriving DecidableEq, Repr

/-- `findContractByName`: the non-event entities of any file mentioning the
candidate name, kept only when at least one interface member matches. -/
def findContractByName (contractName : String) (allFunctions interfaceFunctions : List Fn) :
    Option Binding :=
  let contractFunctions := allFunctions.filter (fun f =>
    fileMatchesName f contractName && f.type ≠ some "event")
  if contractFunctions.length = 0 then none
  else
    let matchingFunctions := matchFunctions interfaceFunctions contractFunctions
    if matchingFunctions.length > 0 then
      some { contractName := contractName,
             file := (contractFunctions.head?).bind (fun f => f.file),
             functions := contractFunctions,
             implementedFunctions := matchingFunctions,
             frac := (matchingFunctions.length : ℚ) / max interfaceFunctions.length 1 }
    else none

/-- The entities the global scan of `findByFunctionMatching` groups: a truthy
file and not an event (`func.file && func.type !== 'event'`). -/
def globalScanEligible (allFunctions : List Fn) : List Fn :=
  allFunctions.filter (fun f => (fileTruthyStr f).isSome && f.type ≠ some "event")

/-- The file keys of the `functionsByFile` map, in JS `Map` insertion order
(first occurrence of each file). -/
def globalScanKeys (allFunctions : List Fn) : List String :=
  ((globalScanEligible allFunctions).map (fun f => f.file.getD "")).eraseDups

/-- The entity group stored under one file key. -/
def globalScanGroup (allFunctions : List Fn) (k : String) : List Fn :=
  (globalScanEligible allFunctions).filter (fun f => f.file == some k)

/-- The interface-like-file skip test of the global scan:
`fileName.toLowerCase().includes('interface') || fileName.startsWith('I')`. -/
def globalScanSkips (fileName : String) : Bool :=
  strContainsB (strToLowerB fileName) "interface" || strStartsWithB fileName "I"

/-- The match ratio the global scan computes for one file group (division by
`interfaceFunctions.length`, which `findByFunctionMatching` guards to be
non-zero). -/
def fileGroupRatio (interfaceFunctions allFunctions : List Fn) (k : String) : ℚ :=
  ((matchFunctions interfaceFunctions (globalScanGroup allFunctions k)).length : ℚ) /
    interfaceFunctions.length

/-- One iteration of the best-match loop of `findByFunctionMatching`,
carrying `(bestMatch, bestMatchRatio)`. -/
def globalScanStep (interfaceFunctions allFunctions : List Fn)
    (acc : Option Binding × ℚ) (fileName : String) : Option Binding × ℚ :=
  if globalScanSkips fileName then acc
  else
    let matchingFunctions :=
      matchFunctions interfaceFunctions (globalScanGroup allFunctions fileName)
    let ratioQ := fileGroupRatio interfaceFunctions allFunctions fileName
    if ratioQ > acc.2 ∧ ratioQ > 1/2 then
      (some { contractName := replaceFirst fileName ".sol" "",
              file := some fileName,
              functions := globalScanGroup allFunctions fileName,
              implementedFunctions := matchingFunctions,
              frac := ratioQ }, ratioQ)
    else acc

/-- `findByFunctionMatching`: global scan over the per-file groups of known
non-interface-like entities, keeping the strictly-best ratio above 0.5. -/
def findByFunctionMatching (interfaceFunctions allFunctions : List Fn) : Option Binding :=
  if interfaceFunctions.length = 0 then none
  else ((globalScanKeys allFunctions).foldl (globalScanStep interfaceFunctions allFunctions)
    ((none : Option Binding), (0 : ℚ))).1

/-- JS `interfaceName.replace(/^I/, '')`. -/
def stripLeadingI (s : String) : String := if strStartsWithB s "I" then strDropB s 1 else s

/-- The candidate-name loop of `findImplementation`, stopping at the first
candidate for which `findContractByName` yields a binding. -/
def firstContractMatch (candidateNames : List String)
    (allFunctions interfaceFunctions : List Fn) : Option Binding :=
  match candidateNames with
  | [] => none
  | c :: cs =>
    match findContractByName c allFunctions interfaceFunctions with
    | some impl => some impl
    | none => firstContractMatch cs allFunctions interfaceFunctions

/-- The candidate implementation names of `findImplementation`, in order, with
`filter(Boolean)` dropping the `null` entry and empty strings. -/
def implCandidateNames (interfaceName : String) : List String :=
  let implName1 : Option String :=
    if strStartsWithB interfaceName "I" then some (strDropB interfaceName 1) else none
  let implName2 := stripLeadingI interfaceName ++ "Impl"
  let implName3 := stripLeadingI interfaceName
  let implName4 := interfaceName ++ "Implementation"
  let implName5 := stripLeadingI interfaceName ++ "Contract"
  ([implName1, some implName2, some implName3, some implName4, some implName5].filterMap id).filter
    (fun s => s ≠ "")

/-- `findImplementation`: name-heuristic candidates in order, then the global
function-matching scan.  (The `baseRepoInfo` parameter of the source is unused
in its body and omitted.) -/
def findImplementation (interfaceName : String) (allFunctions : List Fn) : Option Binding :=
  let interfaceFunctions := getInterfaceFunctions interfaceName allFunctions
  match firstContractMatch (implCandidateNames interfaceName) allFunctions interfaceFunctions with
  | some impl => some impl
  | none => findByFunctionMatching interfaceFunctions allFunctions

/-! ### Interface call detector (src/evm/interface-detector.js)

The four heuristics scan raw source text with JS regexes.  Each regex here is
deterministic (greedy runs over pairwise-disjoint character classes followed by
a fixed character), so it is embedded as a direct matcher at a position plus a
scanner that, like `RegExp.exec` with the `g` flag, advances to the end of each
match and by one character past a failed position.  The scanners take a fuel
argument; every step consumes at least one character, so fuel equal to the text
length never runs out. -/

/-- A detected interface call edge.  The JS field `interface` is `iface` here.
The `implementation` field attached by `enhanceInterfaceCallsWithImplementations`
is omitted: the enhancement block of `extractInterfaceCalls` is dead code (it
reads `.size` of an un-awaited Promise, which is `undefined`, so the guard
`implementations.size > 0` is always false). -/
structure IEdge where
  iface : String
  name : String
  methodName : String
  definition : Option Fn
  pattern : String
deriving DecidableEq, Repr

/-- Maximal non-empty `\w+` run at the head of the text. -/
def takeWordRun (l : List Char) : Option (List Char × List Char) :=
  let run := l.takeWhile isWordChar
  if run.isEmpty then none else some (run, l.dropWhile isWordChar)

/-- Match `(\w+)\([^)]+\)\.(\w+)\s*\(` at the head of the text; on success
returns the two captures and the text after the match. -/
def matchDirectAt (l : List Char) : Option (String × String × List Char) :=
  match takeWordRun l with
  | none => none
  | some (w1, r1) =>
    match r1 with
    | '(' :: r2 =>
      let inner := r2.takeWhile (fun c => c ≠ ')')
      let r3 := r2.dropWhile (fun c => c ≠ ')')
      if inner.isEmpty then none
      else
        match r3 with
        | ')' :: '.' :: r5 =>
          match takeWordRun r5 with
          | none => none
          | some (w2, r6) =>
            match r6.dropWhile isSpaceChar with
            | '(' :: r8 => some (String.mk w1, String.mk w2, r8)
            | _ => none
        | _ => none
    | _ => none

/-- Global scan with the direct-cast regex (pattern 1). -/
def scanDirect : Nat → List Char → List (String × String)
  | 0, _ => []
  | _, [] => []
  | Nat.succ fuel, c :: cs =>
    match matchDirectAt (c :: cs) with
    | some (i, m, rest) => (i, m) :: scanDirect fuel rest
    | none => scanDirect fuel cs

/-- Match the declaration regex `(\w+)\s+(\w+)\s*=\s*(\w+)\([^)]+\);` at the
head of the text, returning (type capture, variable capture, rest). -/
def matchDeclAt (l : List Char) : Option (String × String × List Char) :=
  match takeWordRun l with
  | none => none
  | some (w1, r1) =>
    if (r1.takeWhile isSpaceChar).isEmpty then none
    else
      match takeWordRun (r1.dropWhile isSpaceChar) with
      | none => none
      | some (w2, r3) =>
        match r3.dropWhile isSpaceChar with
        | '=' :: r5 =>
          match takeWordRun (r5.dropWhile isSpaceChar) with
          | none => none
          | some (_, r7) =>
            match r7 with
            | '(' :: r8 =>
              let inner := r8.takeWhile (fun c => c ≠ ')')
              let r9 := r8.dropWhile (fun c => c ≠ ')')
              if inner.isEmpty then none
              else
                match r9 with
                | ')' :: ';' :: r11 => some (String.mk w1, String.mk w2, r11)
                | _ => none
            | _ => none
        | _ => none

/-- Global scan with the declaration regex (pattern 2, first phase). -/
def scanDecls : Nat → List Char → List (String × String)
  | 0, _ => []
  | _, [] => []
  | Nat.succ fuel, c :: cs =>
    match matchDeclAt (c :: cs) with
    | some (t, v, rest) => (t, v) :: scanDecls fuel rest
    | none => scanDecls fuel cs

/-- Match the member-call regex `(\w+)\.(\w+)\s*\(` at the head of the text. -/
def matchMethodAt (l : List Char) : Option (String × String × List Char) :=
  match takeWordRun l with
  | none => none
  | some (w1, r1) =>
    match r1 with
    | '.' :: r2 =>
      match takeWordRun r2 with
      | none => none
      | some (w2, r3) =>
        match r3.dropWhile isSpaceChar with
        | '(' :: r5 => some (String.mk w1, String.mk w2, r5)
        | _ => none
    | _ => none

/-- Global scan with the member-call regex (patterns 2 and 3). -/
def scanMethodCalls : Nat → List Char → List (String × String)
  | 0, _ => []
  | _, [] => []
  | Nat.succ fuel, c :: cs =>
    match matchMethodAt (c :: cs) with
    | some (v, m, rest) => (v, m) :: scanMethodCalls fuel rest
    | none => scanMethodCalls fuel cs

/-- Does the literal name followed by `\s*\(` match at the head of the text? -/
def nameCallAt (nm l : List Char) : Bool :=
  nm.isPrefixOf l && ((l.drop nm.length).dropWhile isSpaceChar).head? == some '('

/-- Wordness of an optional character (out-of-range positions are non-word). -/
def wordish : Option Char → Bool
  | some c => isWordChar c
  | none => false

/-- Test of `new RegExp("\\b" + name + "\\s*\\(")` against the text: some
position has a word boundary and the literal name followed by optional spaces
and an opening parenthesis.  (Entity names are treated as regex-literal text;
for the identifier names the parser produces this agrees with JS.) -/
def testFuncCall (nm : List Char) : Option Char → List Char → Bool
  | _, [] => false
  | prev, c :: cs =>
    ((wordish prev != wordish (some c)) && nameCallAt nm (c :: cs)) ||
      testFuncCall nm (some c) cs

/-- String-level wrapper for the pattern-4 regex test. -/
def funcCallPatternTest (fname text : String) : Bool :=
  testFuncCall fname.data none text.data

/-- Pattern 1, `findDirectInterfaceCalls`: every direct-cast match is appended
unconditionally (the source has no duplicate check here). -/
def findDirectInterfaceCalls (sourceCode : String) (allFunctions : List Fn)
    (interfaceCalls : List IEdge) : List IEdge :=
  (scanDirect sourceCode.data.length sourceCode.data).foldl (fun acc pr =>
    let interfaceName := pr.1
    let methodName := pr.2
    let interfaceFunction := allFunctions.find? (fun f =>
      (match fileTruthyStr f with
       | some file => strContainsB file interfaceName
       | none => false) && f.name == methodName)
    acc ++ [{ iface := interfaceName, name := interfaceName ++ "." ++ methodName,
              methodName := methodName, definition := interfaceFunction,
              pattern := "direct" }]) interfaceCalls

/-- JS `Map.get` over the declaration pairs (type, var): the last `set` for a
variable wins. -/
def lookupVarType (decls : List (String × String)) (v : String) : Option String :=
  (decls.reverse.find? (fun pr => pr.2 == v)).map (fun pr => pr.1)

/-- The receiver names skipped by patterns 2 and 3. -/
def reservedReceivers : List String := ["msg", "block", "tx", "this", "super", "$"]

/-- The edge pattern 2 would emit for one member-call match `(var, method)`:
`none` when the receiver is reserved or has no recorded declaration.
(The source computes the `find?` lookup after the duplicate check; both are
pure, so building the full edge first is observationally identical.) -/
def varCallEdge (interfaceVariables : List (String × String)) (allFunctions : List Fn)
    (pr : String × String) : Option IEdge :=
  if pr.1 ∈ reservedReceivers then none
  else
    match lookupVarType interfaceVariables pr.1 with
    | none => none
    | some interfaceName =>
      some { iface := interfaceName,
             name := interfaceName ++ "." ++ pr.2,
             methodName := pr.2,
             definition := allFunctions.find? (fun f =>
               f.name == pr.2 &&
               (match fileTruthyStr f with
                | some file => strContainsB file interfaceName
                | none => false)),
             pattern := "variable" }

/-- One iteration of the member-call loop of pattern 2: append the edge unless
its composite name is already present. -/
def varCallStep (interfaceVariables : List (String × String)) (allFunctions : List Fn)
    (acc : List IEdge) (pr : String × String) : List IEdge :=
  match varCallEdge interfaceVariables allFunctions pr with
  | none => acc
  | some e => if acc.any (fun call => call.name == e.name) then acc else acc ++ [e]

/-- Pattern 2, `findVariableInterfaceCalls`: record every `Type var = Type(..);`
declaration from the whole text, then scan the whole text for `var.method(`
calls and resolve them through the recorded mapping, appending each new
composite name once. -/
def findVariableInterfaceCalls (sourceCode : String) (allFunctions : List Fn)
    (interfaceCalls : List IEdge) : List IEdge :=
  let interfaceVariables := scanDecls sourceCode.data.length sourceCode.data
  (scanMethodCalls sourceCode.data.length sourceCode.data).foldl
    (varCallStep interfaceVariables allFunctions) interfaceCalls

/-- Pattern 3, `findMethodCalls`: member calls whose method is declared in an
interface-looking file (file mentions "interface", starts with `I`, or the
member's signature mentions `external`). -/
def findMethodCalls (sourceCode : String) (allFunctions : List Fn)
    (interfaceCalls : List IEdge) : List IEdge :=
  (scanMethodCalls sourceCode.data.length sourceCode.data).foldl (fun acc pr =>
    let variableName := pr.1
    let methodName := pr.2
    if variableName ∈ reservedReceivers then acc
    else
      let interfaceFunction := allFunctions.find? (fun f =>
        f.name == methodName &&
        (match fileTruthyStr f with
         | some file =>
           strContainsB (strToLowerB file) "interface" || strStartsWithB file "I" ||
             (match f.signature with
              | some sig => strContainsB sig "external"
              | none => false)
         | none => false))
      match interfaceFunction with
      | none => acc
      | some fdef =>
        let callName := variableName ++ "." ++ methodName
        if acc.any (fun call => call.name == callName) then acc
        else
          acc ++ [{ iface := variableName, name := callName, methodName := methodName,
                    definition := some fdef, pattern := "method" }]) interfaceCalls

/-- Pattern 4, `findByFunctionName`: any member of an interface-looking file
whose name occurs as a call anywhere in the text, deduplicated by method
name. -/
def findByFunctionName (sourceCode : String) (allFunctions : List Fn)
    (interfaceCalls : List IEdge) : List IEdge :=
  let potentialInterfaceFunctions := allFunctions.filter (fun f =>
    match fileTruthyStr f with
    | some file =>
      strContainsB (strToLowerB file) "interface" || strStartsWithB file "I" ||
        strContainsB file "IDrand" || strContainsB file "IGas"
    | none => false)
  potentialInterfaceFunctions.foldl (fun acc interfaceFunc =>
    if funcCallPatternTest interfaceFunc.name sourceCode then
      if acc.any (fun call => call.methodName == interfaceFunc.name) then acc
      else
        let interfaceName := replaceFirst (interfaceFunc.file.getD "") ".sol" ""
        acc ++ [{ iface := interfaceName,
                  name := interfaceName ++ "." ++ interfaceFunc.name,
                  methodName := interfaceFunc.name,
                  definition := some interfaceFunc, pattern := "byname" }]
    else acc) interfaceCalls

/-- `extractInterfaceCalls`: the four patterns in order over a shared
accumulator.  The implementation-resolution enhancement at the end of the
source function is dead (see `IEdge`), so the pattern output is returned
unchanged, which also makes the `baseRepoInfo` parameter irrelevant. -/
def extractInterfaceCalls (sourceCode : String) (allFunctions : List Fn) : List IEdge :=
  findByFunctionName sourceCode allFunctions
    (findMethodCalls sourceCode allFunctions
      (findVariableInterfaceCalls sourceCode allFunctions
        (findDirectInterfaceCalls sourceCode allFunctions [])))

/-! ### Call tree builder (src/evm/call-tree-builder.js) -/

/-- A call-tree node.  One constructor covers all the JS node shapes; fields a
shape leaves `undefined` are `none` (and the absent `calls` array of leaf
shapes is `[]`, the absent `external` flag is `false`, matching how the code
reads them).  The `implementation` field is omitted for the reason given at
`IEdge`. -/
inductive CTNode : Type where
  | mk (name : String) (signature : Option String) (file : Option String)
       (calls : List CTNode) (depth : Nat) (external : Bool)
       (ntype : Option String) (iface : Option String) (pattern : Option String)
       (args : Option Nat) (definition : Option Fn)
deriving Repr

/-- Name of a call-tree node. -/
def CTNode.name : CTNode → String
  | CTNode.mk n _ _ _ _ _ _ _ _ _ _ => n

/-- Children of a call-tree node. -/
def CTNode.calls : CTNode → List CTNode
  | CTNode.mk _ _ _ c _ _ _ _ _ _ _ => c

/-- Depth of a call-tree node. -/
def CTNode.depth : CTNode → Nat
  | CTNode.mk _ _ _ _ d _ _ _ _ _ _ => d

/-- External flag of a call-tree node. -/
def CTNode.external : CTNode → Bool
  | CTNode.mk _ _ _ _ _ e _ _ _ _ _ => e

/-- The `type` field of a call-tree node (`some "interface"` on nodes added by
interface augmentation). -/
def CTNode.ntype : CTNode → Option String
  | CTNode.mk _ _ _ _ _ _ t _ _ _ _ => t

/-- The budget/cycle cutoff leaf `{ name, calls: [], depth }`. -/
def cutoffLeaf (name : String) (depth : Nat) : CTNode :=
  CTNode.mk name none none [] depth false none none none none none

/-- The external-call leaf `{ name, external: true, arguments, depth }`. -/
def externalLeaf (call : RCall) (depth : Nat) : CTNode :=
  CTNode.mk call.name none none [] depth true none none none (some call.arguments) none

/-- The interface-augmentation child node. -/
def interfaceChild (interfaceCall : IEdge) (depth : Nat) : CTNode :=
  CTNode.mk interfaceCall.name none none [] depth interfaceCall.definition.isNone
    (some "interface") (some interfaceCall.iface) (some interfaceCall.pattern)
    none interfaceCall.definition

/-- The interface-augmentation loop: append a child for each detected call
whose composite name is not already among the node's children. -/
def appendInterfaceCalls (calls : List CTNode) (edges : List IEdge) (depth : Nat) :
    List CTNode :=
  edges.foldl (fun acc interfaceCall =>
    if acc.any (fun call => call.name == interfaceCall.name) then acc
    else acc ++ [interfaceChild interfaceCall depth]) calls

/-- The static-expansion children: for each resolved call, recurse on the
dereferenced definition when the call is internal and has one, otherwise an
external leaf.  `recur` is the recursive call at depth+1. -/
def staticChildrenWith (heap : List Fn) (recur : Fn → CTNode) (calls : List RCall)
    (childDepth : Nat) : List CTNode :=
  calls.map (fun call =>
    match call.isExternal, call.definition.bind heap.get? with
    | false, some calledFunction => recur calledFunction
    | _, _ => externalLeaf call childDepth)

/-- The recursion of `buildCallTree` with the remaining budget
`fuel = maxDepth − currentDepth` made explicit; `buildCallTree` below wraps it
and a proved equation (`buildCallTree_unfold`) recovers the exact
`currentDepth >= maxDepth` test of the source.  `heap` interprets the object
references stored in `definition` fields; `allFunctions` is the list the
source passes through to the interface detector. -/
def buildCallTreeGo (heap allFunctions : List Fn) :
    Nat → Fn → Nat → List String → CTNode
  | 0, currentFunction, currentDepth, _ =>
    cutoffLeaf currentFunction.name currentDepth
  | Nat.succ fuel, currentFunction, currentDepth, visited =>
    if currentFunction.name ∈ visited then
      cutoffLeaf currentFunction.name currentDepth
    else
      let visitedPlus := currentFunction.name :: visited
      let staticCalls := staticChildrenWith heap
        (fun g => buildCallTreeGo heap allFunctions fuel g (currentDepth + 1) visitedPlus)
        (currentFunction.resolvedCalls.getD []) (currentDepth + 1)
      let withInterfaces :=
        if sourceTruthy currentFunction ∧ 0 < fuel then
          appendInterfaceCalls staticCalls
            (extractInterfaceCalls (currentFunction.sourceCode.getD "") allFunctions)
            (currentDepth + 1)
        else staticCalls
      CTNode.mk currentFunction.name currentFunction.signature currentFunction.file
        withInterfaces currentDepth false none none none none none

/-- `buildCallTree(allFunctions, currentFunction, maxDepth, currentDepth,
visited)`; the top-level call of the source uses `currentDepth = 0` and an
empty visited set. -/
def buildCallTree (heap allFunctions : List Fn) (currentFunction : Fn)
    (maxDepth currentDepth : Nat) (visited : List String) : CTNode :=
  buildCallTreeGo heap allFunctions (maxDepth - currentDepth) currentFunction
    currentDepth visited

/-! ### Analyzer ingestion (src/evm/solidity-analyzer.js)

The Solidity front-end (`Parser.parse` followed by the `analyzeContract` AST
visitor) is the oracle `parse : String → Option (List Fn × List String)`
giving the entities and import paths extracted from a file's text, with `none`
for a ParseError, as in section 6 of the specification. -/

/-- Per-run analyzer state (the fields of `GitHubSolidityAnalyzer` the
ingestion loop touches). -/
structure AnalyzerSt where
  functions : List Fn
  dependencies : List String
  processedFiles : List String
  sourceFiles : List (String × String)
deriving Repr

/-- The parse loop of the initial `parseAndAnalyze` over the seed files: a
ParseError here is rethrown (`throw new Error("Parse error in ...")`),
aborting the run at the first failing file. -/
def parseSeedFiles (parse : String → Option (List Fn × List String)) :
    List FileData → Except String (List (List Fn × List String))
  | [] => Except.ok []
  | file :: rest =>
    match parse file.content with
    | none => Except.error ("Parse error in " ++ file.filename)
    | some r =>
      match parseSeedFiles parse rest with
      | Except.error e => Except.error e
      | Except.ok rs => Except.ok (r :: rs)

/-- The initial `parseAndAnalyze` over the seed files: parse them all (any
ParseError aborts), then collect the extracted entities and the import set. -/
def parseAndAnalyzeSeed (parse : String → Option (List Fn × List String))
    (files : List FileData) : Except String (List Fn × List String) :=
  match parseSeedFiles parse files with
  | Except.error e => Except.error e
  | Except.ok parsed =>
    Except.ok (parsed.foldl (fun acc pr =>
      (acc.1 ++ pr.1, pr.2.foldl addToSet acc.2)) ([], []))

/-- The per-level body of `resolveDependenciesRecursively` after the batch
fetch: skip files whose basename was already processed, record the others,
then parse each new file — a ParseError is caught and merely skips the file
(it contributes no entities and no imports), everything else extends the
entity list and the dependency set. -/
def ingestResolvedFiles (parse : String → Option (List Fn × List String))
    (st : AnalyzerSt) (resolved : List FileData) : AnalyzerSt :=
  let step1 := resolved.foldl (fun acc fileData =>
    let normalizedName := basenameOf fileData.filename
    if normalizedName ∈ acc.2.processedFiles then acc
    else (acc.1 ++ [fileData],
          { acc.2 with
              processedFiles := addToSet acc.2.processedFiles normalizedName,
              sourceFiles := acc.2.sourceFiles ++ [(fileData.filename, fileData.content)] }))
    (([] : List FileData), st)
  step1.1.foldl (fun acc fileData =>
    match parse fileData.content with
    | none => acc
    | some pr =>
      { acc with
          functions := acc.functions ++ pr.1,
          dependencies := pr.2.foldl addToSet acc.dependencies }) step1.2

/-- One level of the dependency-resolution loop: batch-resolve the currently
known dependencies, then ingest whatever was fetched.  (The source recurses
when new dependencies appeared; the claims below concern one level.) -/
def dependencyResolutionStep (fetch : String → Option FileData)
    (parse : String → Option (List Fn × List String)) (ast : AnalyzerSt)
    (rst : ResolverState) (baseRepoInfo : Option RepoInfo) :
    AnalyzerSt × ResolverState :=
  let r := resolveDependencies fetch rst ast.dependencies baseRepoInfo
  (ingestResolvedFiles parse ast r.1, r.2.2)

/-- `getStats().successRate`.  The JS expression is
`processed.size / (processed.size + failed.size) || 0`; division of zero by
zero gives NaN, which `|| 0` turns into 0, so the total model returns 0 on the
empty denominator. -/
def successRate (st : ResolverState) : ℚ :=
  let p : ℚ := st.processedDependencies.length
  let f : ℚ := st.failedDependencies.length
  if p + f = 0 then 0 else p / (p + f)

/-! ### Predicates and data used by the theorem statements -/

mutual
/-- All nodes of a call tree (the node itself and its descendants). -/
def CTNode.allNodes : CTNode → List CTNode
  | CTNode.mk n s f c d e t i p a df =>
    CTNode.mk n s f c d e t i p a df :: CTNode.listNodes c

/-- All nodes of a forest of call trees. -/
def CTNode.listNodes : List CTNode → List CTNode
  | [] => []
  | x :: xs => x.allNodes ++ CTNode.listNodes xs
end

mutual
/-- Every child sits exactly one level below its parent (hence depth is
non-decreasing from the root to any descendant). -/
def childDepthB : CTNode → Bool
  | CTNode.mk _ _ _ c d _ _ _ _ _ _ => childDepthListB (d + 1) c

/-- List form of `childDepthB`. -/
def childDepthListB : Nat → List CTNode → Bool
  | _, [] => true
  | d1, x :: xs => (x.depth == d1) && childDepthB x && childDepthListB d1 xs
end

mutual
/-- Path discipline: relative to the set `s` of names of proper ancestors, a
node whose name repeats an ancestor has no children, i.e. along any
root-to-leaf path a repeated identity can occur only as the terminal cutoff
leaf. -/
def noRepeatB : List String → CTNode → Bool
  | s, CTNode.mk n _ _ c _ _ _ _ _ _ _ =>
    (if n ∈ s then c.isEmpty else true) && noRepeatListB (n :: s) c

/-- List form of `noRepeatB`. -/
def noRepeatListB : List String → List CTNode → Bool
  | _, [] => true
  | s, x :: xs => noRepeatB s x && noRepeatListB s xs
end

/-- The statically resolved children a non-cutoff node receives, as a function
of the same arguments as `buildCallTree` (equals the inner `staticCalls` of
the expansion branch, see `buildCallTree_unfold`). -/
def staticChildren (heap allFunctions : List Fn) (currentFunction : Fn)
    (maxDepth currentDepth : Nat) (visited : List String) : List CTNode :=
  staticChildrenWith heap
    (fun g => buildCallTree heap allFunctions g maxDepth (currentDepth + 1)
      (currentFunction.name :: visited))
    (currentFunction.resolvedCalls.getD []) (currentDepth + 1)

/-- The `dependencies.external` slice of `generateReport`: the failed imports
that classify as external. -/
def reportExternal (st : ResolverState) : List String :=
  st.failedDependencies.filter (fun dep => isExternalDependency dep)

/-- Compact entity constructor used by the concrete examples below. -/
def simpleFn (n : String) (file : Option String) (params : List Param)
    (calls : Option (List RCall)) (src : Option String) : Fn :=
  { name := n, signature := some (n ++ "()"), visibility := none, stateMutability := none,
    parameters := params, returnParameters := [], file := file, type := none,
    sourceCode := src, resolvedCalls := calls }

/-- Example: entity `A` calling `B` (heap index 1). -/
def exA : Fn :=
  simpleFn "A" (some "A.sol") []
    (some [{ name := "B", arguments := 0, isExternal := false, definition := some 1 }]) none

/-- Example: entity `B` calling `A` (heap index 0), closing the cycle. -/
def exB : Fn :=
  simpleFn "B" (some "B.sol") []
    (some [{ name := "A", arguments := 0, isExternal := false, definition := some 0 }]) none

/-- Example heap for the `A→B→A` cycle. -/
def exHeap : List Fn := [exA, exB]

/-- Example: a cyclic caller that also carries source text with a detectable
direct-cast interface call. -/
def cyA : Fn :=
  simpleFn "A2" (some "A2.sol") []
    (some [{ name := "B2", arguments := 0, isExternal := false, definition := some 1 }])
    (some "IFoo(x).bar(y)")

/-- Example: the middle entity of the cycle (no source text of its own). -/
def cyB : Fn :=
  simpleFn "B2" (some "B2.sol") []
    (some [{ name := "A2", arguments := 0, isExternal := false, definition := some 0 }]) none

/-- Example heap for the cyclic caller with source text. -/
def cyHeap : List Fn := [cyA, cyB]

/-- Example: an interface member recorded as an event (events stay in
`getInterfaceFunctions` but are excluded from candidate contract groups). -/
def exIThingEvent : Fn :=
  { name := "foo", signature := some "foo(uint256 x)", visibility := none,
    stateMutability := none, parameters := [{ name := "x", type := "uint256", indexed := false }],
    returnParameters := [], file := some "IThing.sol", type := some "event",
    sourceCode := none, resolvedCalls := none }

/-- Example: a concrete member with the same name and parameter types living
in an unrelated file, found only by the global scan. -/
def exZebraFoo : Fn :=
  simpleFn "foo" (some "Zebra.sol")
    [{ name := "y", type := "uint256", indexed := false }] none none

/-- Example entity list on which every name-heuristic candidate scores zero
and the global scan accepts `Zebra.sol`. -/
def exGlobalFns : List Fn := [exIThingEvent, exZebraFoo]

/-- Example: the interface member of `IOracle.sol` (Scenario-D-like data). -/
def exOracleGet : Fn := simpleFn "getValue" (some "IOracle.sol") [] none none

/-- Example: the implementing member of `Oracle.sol`. -/
def exOracleImpl : Fn := simpleFn "getValue" (some "Oracle.sol") [] none none

/-- Example entity list for the name-heuristic path of `findImplementation`. -/
def exOracleFns : List Fn := [exOracleGet, exOracleImpl]

/-! ## Theorems

First the shared helper lemmas, then one theorem per claim (with witnesses and
counterexamples where required). -/

/-- Elements only ever enter `addToSet`; the element added is a member. -/
theorem mem_addToSet_self (s : List String) (x : String) : x ∈ addToSet s x := by
  unfold addToSet
  by_cases h : x ∈ s
  · simp [h]
  · simp [h]

/-- `addToSet` preserves existing members. -/
theorem mem_addToSet_of_mem (s : List String) (x y : String) (h : y ∈ s) :
    y ∈ addToSet s x := by
  unfold addToSet
  by_cases hx : x ∈ s
  · simpa [hx]
  · simp [hx, h]

/-- Characterization of the candidate loop: either every candidate fails and
all of them were attempted, or the list splits around the first success, the
prefix all failing, and the attempts are that prefix plus the success. -/
theorem fetchFirst_spec (fetch : String → Option FileData) (urls : List String) :
    (fetchFirst fetch urls = (none, urls) ∧ ∀ v ∈ urls, fetch v = none) ∨
    (∃ pre u fd suf, urls = pre ++ u :: suf ∧ (∀ v ∈ pre, fetch v = none) ∧
      fetch u = some fd ∧ fetchFirst fetch urls = (some (u, fd), pre ++ [u])) := by
  induction urls with
  | nil => exact Or.inl ⟨rfl, by simp⟩
  | cons u us ih =>
    cases hu : fetch u with
    | some fd =>
      refine Or.inr ⟨[], u, fd, us, by simp, by simp, hu, ?_⟩
      simp [fetchFirst, hu]
    | none =>
      rcases ih with ⟨h1, h2⟩ | ⟨pre, v, fd, suf, heq, hpre, hv, hres⟩
      · refine Or.inl ⟨?_, ?_⟩
        · simp [fetchFirst, hu, h1]
        · intro v hv
          rcases List.mem_cons.mp hv with rfl | hmem
          · exact hu
          · exact h2 v hmem
      · refine Or.inr ⟨u :: pre, v, fd, suf, by simp [heq], ?_, hv, ?_⟩
        · intro w hw
          rcases List.mem_cons.mp hw with rfl | hmem
          · exact hu
          · exact hpre w hmem
        · simp [fetchFirst, hu, hres]

/-- After any call of `tryFetchDependency` the path is memoized: it belongs to
the processed or the failed set of the resulting state. -/
theorem tryFetchDependency_memoized (fetch : String → Option FileData)
    (st : ResolverState) (p : String) (info : Option RepoInfo) :
    p ∈ (tryFetchDependency fetch st p info).2.1.processedDependencies ∨
    p ∈ (tryFetchDependency fetch st p info).2.1.failedDependencies := by
  unfold tryFetchDependency
  by_cases hmem : p ∈ st.processedDependencies ∨ p ∈ st.failedDependencies
  · simp only [hmem, if_true]
  · simp only [hmem, if_false]
    by_cases hext : isExternalDependency p = true
    · simp [hext, mem_addToSet_self]
    · simp only [hext, if_false]
      by_cases hurls : (resolveDependencyPaths p info).length = 0
      · simp [hurls, mem_addToSet_self]
      · simp only [hurls, if_false]
        rcases hff : fetchFirst fetch (resolveDependencyPaths p info) with ⟨r, att⟩
        cases r with
        | none => simp [mem_addToSet_self]
        | some pr => simp [mem_addToSet_self]

/-- Claim C10: `getStats().successRate` is always a finite number in `[0,1]`;
it equals `processed / (processed + failed)` whenever at least one import path
has been processed or failed, and equals 0 (never NaN and never an error) when
both sets are empty. -/
theorem claim10_success_rate_bounds (st : ResolverState) :
    0 ≤ successRate st ∧ successRate st ≤ 1 ∧
    (0 < st.processedDependencies.length + st.failedDependencies.length →
      successRate st = (st.processedDependencies.length : ℚ) /
        ((st.processedDependencies.length : ℚ) + (st.failedDependencies.length : ℚ))) ∧
    (st.processedDependencies = [] ∧ st.failedDependencies = [] → successRate st = 0) := by
  unfold successRate
  by_cases h : (st.processedDependencies.length : ℚ) + (st.failedDependencies.length : ℚ) = 0
  · have hcast : ((st.processedDependencies.length + st.failedDependencies.length : Nat) : ℚ) = 0 := by
      push_cast
      exact h
    have hnat : st.processedDependencies.length + st.failedDependencies.length = 0 :=
      Nat.cast_eq_zero.mp hcast
    refine ⟨by simp [h], by simp [h], ?_, by simp [h]⟩
    intro hpos
    omega
  · have hpos : 0 < (st.processedDependencies.length : ℚ) + (st.failedDependencies.length : ℚ) :=
      lt_of_le_of_ne (by positivity) (Ne.symm h)
    refine ⟨?_, ?_, ?_, ?_⟩
    · simp only [h, if_false]
      positivity
    · simp only [h, if_false]
      rw [div_le_one hpos]
      simp
    · intro _
      simp [h]
    · intro hboth
      exfalso
      apply h
      simp [hboth.1, hboth.2]

/-- Witness for C10 at concrete states. -/
theorem claim10_success_rate_witness :
    successRate ⟨["a"], ["b", "c"], []⟩ = 1/3 ∧ successRate ⟨[], [], []⟩ = 0 := by
  constructor
  · have h := (claim10_success_rate_bounds ⟨["a"], ["b", "c"], []⟩).2.2.1 (by decide)
    rw [h]
    norm_num
  · exact (claim10_success_rate_bounds ⟨[], [], []⟩).2.2.2 ⟨rfl, rfl⟩

/-- Claim C2 (amended): `tryFetchDependency` tries the candidate locations
strictly in order and stops at the first successful fetch, marking the path
processed; a path already in the processed or failed set triggers no fetch
attempt and no state change (so resolving the same path twice performs at most
one fetch attempt sequence); a path is recorded failed either without any
attempt (external classification, or an empty candidate list) or, otherwise,
exactly when every candidate fetch fails. -/
theorem claim2_fetch_order_and_idempotence (fetch : String → Option FileData)
    (st : ResolverState) (p : String) (info : Option RepoInfo) :
    ((p ∈ st.processedDependencies ∨ p ∈ st.failedDependencies) →
      tryFetchDependency fetch st p info = (none, st, [])) ∧
    (¬ (p ∈ st.processedDependencies ∨ p ∈ st.failedDependencies) →
      isExternalDependency p = true →
      tryFetchDependency fetch st p info =
        (none, { st with failedDependencies := addToSet st.failedDependencies p }, [])) ∧
    (¬ (p ∈ st.processedDependencies ∨ p ∈ st.failedDependencies) →
      isExternalDependency p = false →
      resolveDependencyPaths p info ≠ [] →
      ((∃ pre u fd suf, resolveDependencyPaths p info = pre ++ u :: suf ∧
          (∀ v ∈ pre, fetch v = none) ∧ fetch u = some fd ∧
          tryFetchDependency fetch st p info =
            (some fd,
             { st with
                processedDependencies := addToSet st.processedDependencies p,
                resolvedFiles := setMapEntry st.resolvedFiles p fd },
             pre ++ [u])) ∨
        ((∀ v ∈ resolveDependencyPaths p info, fetch v = none) ∧
          tryFetchDependency fetch st p info =
            (none, { st with failedDependencies := addToSet st.failedDependencies p },
             resolveDependencyPaths p info)))) ∧
    (isExternalDependency p = false → p ∉ st.failedDependencies →
      p ∈ (tryFetchDependency fetch st p info).2.1.failedDependencies →
      ∀ v ∈ resolveDependencyPaths p info, fetch v = none) ∧
    (tryFetchDependency fetch (tryFetchDependency fetch st p info).2.1 p info =
      (none, (tryFetchDependency fetch st p info).2.1, [])) := by
  have hmemo : ∀ st2 : ResolverState,
      (p ∈ st2.processedDependencies ∨ p ∈ st2.failedDependencies) →
      tryFetchDependency fetch st2 p info = (none, st2, []) := by
    intro st2 h
    unfold tryFetchDependency
    simp [h]
  refine ⟨hmemo st, ?_, ?_, ?_, ?_⟩
  · intro hmem hext
    unfold tryFetchDependency
    simp [hmem, hext]
  · intro hmem hext hurls
    have hlen : ¬ (resolveDependencyPaths p info).length = 0 := by
      simpa [List.length_eq_zero] using hurls
    rcases fetchFirst_spec fetch (resolveDependencyPaths p info) with
      ⟨hff, hall⟩ | ⟨pre, u, fd, suf, heq, hpre, hu, hff⟩
    · refine Or.inr ⟨hall, ?_⟩
      unfold tryFetchDependency
      simp [hmem, hext, hlen, hff]
    · refine Or.inl ⟨pre, u, fd, suf, heq, hpre, hu, ?_⟩
      unfold tryFetchDependency
      simp [hmem, hext, hlen, hff]
  · intro hext hfail hres
    by_cases hmem : p ∈ st.processedDependencies ∨ p ∈ st.failedDependencies
    · rw [hmemo st hmem] at hres
      exact absurd hres hfail
    · by_cases hurls : resolveDependencyPaths p info = []
      · intro v hv
        rw [hurls] at hv
        exact absurd hv (List.not_mem_nil v)
      · have hlen : ¬ (resolveDependencyPaths p info).length = 0 := by
          simpa [List.length_eq_zero] using hurls
        rcases fetchFirst_spec fetch (resolveDependencyPaths p info) with
          ⟨hff, hall⟩ | ⟨pre, u, fd, suf, heq, hpre, hu, hff⟩
        · exact fun v hv => hall v hv
        · exfalso
          have hres2 : tryFetchDependency fetch st p info =
              (some fd,
               { st with
                  processedDependencies := addToSet st.processedDependencies p,
                  resolvedFiles := setMapEntry st.resolvedFiles p fd },
               pre ++ [u]) := by
            unfold tryFetchDependency
            simp [hmem, hext, hlen, hff]
          rw [hres2] at hres
          exact hfail hres
  · exact hmemo _ (tryFetchDependency_memoized fetch st p info)

/-- Witness for C2: a memoized path is not re-attempted. -/
theorem claim2_fetch_order_witness :
    tryFetchDependency (fun _ => none) ⟨["./Lib.sol"], [], []⟩ "./Lib.sol" none =
      (none, ⟨["./Lib.sol"], [], []⟩, []) :=
  (claim2_fetch_order_and_idempotence (fun _ => none) ⟨["./Lib.sol"], [], []⟩
    "./Lib.sol" none).1 (Or.inl (by decide))

set_option maxRecDepth 100000 in
/-- Counterexample for C2 as stated: the external import
`@openzeppelin/contracts/token/ERC20/ERC20.sol` is added to the failed set
with zero fetch attempts even though its candidate list is non-empty and every
candidate fetch would succeed — so "added to the failed set only when every
candidate fails" is false on the code. -/
theorem claim2_fetch_order_counterexample :
    tryFetchDependency (fun u => some ⟨"contract ERC20 {}", "ERC20.sol", u⟩) ⟨[], [], []⟩
        "@openzeppelin/contracts/token/ERC20/ERC20.sol"
        (some ⟨"own", "repo", "main", "contracts"⟩) =
      (none, ⟨[], ["@openzeppelin/contracts/token/ERC20/ERC20.sol"], []⟩, []) ∧
    resolveDependencyPaths "@openzeppelin/contracts/token/ERC20/ERC20.sol"
        (some ⟨"own", "repo", "main", "contracts"⟩) ≠ [] ∧
    (∀ u ∈ resolveDependencyPaths "@openzeppelin/contracts/token/ERC20/ERC20.sol"
        (some ⟨"own", "repo", "main", "contracts"⟩),
      (fun u => some (⟨"contract ERC20 {}", "ERC20.sol", u⟩ : FileData)) u ≠ none) := by
  refine ⟨by decide, by decide, by decide⟩

/-- Claim C3 (amended): an import that classifies as external is resolved with
no fetch attempt; a fresh external import is recorded in the failed set and
reported under failed/external; and the candidate list of an external import
is empty unless the common-library prefix table or the well-known-contracts
basename table applies to it. -/
theorem claim3_external_classification (fetch : String → Option FileData)
    (st : ResolverState) (p : String) (info : Option RepoInfo)
    (hext : isExternalDependency p = true) :
    (tryFetchDependency fetch st p info).2.2 = [] ∧
    (p ∉ st.processedDependencies → p ∉ st.failedDependencies →
      tryFetchDependency fetch st p info =
        (none, { st with failedDependencies := addToSet st.failedDependencies p }, []) ∧
      p ∈ reportExternal (tryFetchDependency fetch st p info).2.1) ∧
    (∀ q, tryResolveCommonLibrariesSafe (stripQuotes q) = [] →
      isExternalDependency (stripQuotes q) = true →
      resolveDependencyPaths q info = []) := by
  refine ⟨?_, ?_, ?_⟩
  · by_cases hmem : p ∈ st.processedDependencies ∨ p ∈ st.failedDependencies
    · unfold tryFetchDependency
      simp [hmem]
    · unfold tryFetchDependency
      simp [hmem, hext]
  · intro h1 h2
    have hmem : ¬ (p ∈ st.processedDependencies ∨ p ∈ st.failedDependencies) := by
      intro h
      rcases h with h | h
      · exact h1 h
      · exact h2 h
    have hres : tryFetchDependency fetch st p info =
        (none, { st with failedDependencies := addToSet st.failedDependencies p }, []) := by
      unfold tryFetchDependency
      simp [hmem, hext]
    refine ⟨hres, ?_⟩
    rw [hres]
    unfold reportExternal
    rw [List.mem_filter]
    exact ⟨mem_addToSet_self _ _, hext⟩
  · intro q hq hqext
    unfold resolveDependencyPaths
    cases info with
    | none => rfl
    | some i =>
      simp only [tryResolveCommonLibraries, hq, List.length_nil, gt_iff_lt,
        Nat.lt_irrefl, if_false, hqext, if_true]

/-- Witness for C3 at the OpenZeppelin ERC20 import with a fresh state. -/
theorem claim3_external_witness :
    tryFetchDependency (fun _ => none) ⟨[], [], []⟩
        "@openzeppelin/contracts/token/ERC20/ERC20.sol" none =
      (none, ⟨[], ["@openzeppelin/contracts/token/ERC20/ERC20.sol"], []⟩, []) ∧
    "@openzeppelin/contracts/token/ERC20/ERC20.sol" ∈
      reportExternal ⟨[], ["@openzeppelin/contracts/token/ERC20/ERC20.sol"], []⟩ := by
  have h := (claim3_external_classification (fun _ => none) ⟨[], [], []⟩
    "@openzeppelin/contracts/token/ERC20/ERC20.sol" none (by decide)).2.1
    (by decide) (by decide)
  have h2 := h.2
  rw [h.1] at h2
  exact ⟨h.1, h2⟩

set_option maxRecDepth 100000 in
/-- Counterexample for C3 as stated: the import
`@openzeppelin/contracts/token/ERC20/ERC20.sol` classifies as external, yet
its candidate-location list is not empty — the well-known-contracts basename
table fires before the external check inside `resolveDependencyPaths` and
returns the two canonical ERC20 locations. -/
theorem claim3_external_counterexample :
    isExternalDependency "@openzeppelin/contracts/token/ERC20/ERC20.sol" = true ∧
    resolveDependencyPaths "@openzeppelin/contracts/token/ERC20/ERC20.sol"
        (some ⟨"own", "repo", "main", "contracts"⟩) =
      ["https://github.com/OpenZeppelin/openzeppelin-contracts/blob/master/contracts/token/ERC20/ERC20.sol",
       "https://github.com/transmissions11/solmate/blob/main/src/tokens/ERC20.sol"] := by
  exact ⟨by decide, by decide⟩

/-- Element-wise parameter-type comparison agrees with equality of the mapped
type lists when the lengths agree. -/
theorem zip_types_iff : ∀ (l1 l2 : List Param), l1.length = l2.length →
    (((l1.zip l2).all (fun pr => pr.1.type == pr.2.type)) = true ↔
      l1.map Param.type = l2.map Param.type) := by
  intro l1
  induction l1 with
  | nil =>
    intro l2 h
    cases l2 with
    | nil => simp
    | cons b bs => simp at h
  | cons a as ih =>
    intro l2 h
    cases l2 with
    | nil => simp at h
    | cons b bs =>
      simp only [List.zip_cons_cons, List.all_cons, List.map_cons, Bool.and_eq_true,
        beq_iff_eq, List.cons.injEq]
      rw [ih bs (by simpa using h)]

/-- A `filterMap` keeps every element exactly when the function is defined on
all of them. -/
theorem filterMap_length_eq_iff {α β : Type} (f : α → Option β) :
    ∀ l : List α, ((l.filterMap f).length = l.length ↔ ∀ x ∈ l, (f x).isSome) := by
  intro l
  induction l with
  | nil => simp
  | cons a as ih =>
    cases hf : f a with
    | none =>
      simp only [List.filterMap_cons, hf]
      constructor
      · intro h
        exfalso
        have hle := List.length_filterMap_le f as
        simp only [List.length_cons] at h
        omega
      · intro h
        exfalso
        have := h a (by simp)
        simp [hf] at this
    | some b =>
      simp only [List.filterMap_cons, hf, List.length_cons, Nat.add_right_cancel_iff,
        List.mem_cons]
      rw [ih]
      constructor
      · intro h x hx
        rcases hx with rfl | hx
        · simp [hf]
        · exact h x hx
      · intro h x hx
        exact h x (Or.inr hx)

/-- Claim C4 (amended): an implementation member matches an interface member
iff it has the same name, the same parameter count, and element-wise equal
parameter type strings; return type, visibility, and mutability are not
compared; `matchRatio = matchedCount / max(interfaceMemberCount, 1)` always
lies in `[0,1]`; and it equals 1 iff the interface member list is non-empty
and every member has such a counterpart (for an empty member list the ratio is
0, not 1, even though the counterpart condition is vacuously true). -/
theorem claim4_member_matching (interfaceFunctions implementationFunctions : List Fn)
    (f g : Fn) (v1 m1 : Option String) (r1 : List Param)
    (v2 m2 : Option String) (r2 : List Param) :
    (isCompatibleSignature f g = true ↔
      (f.name = g.name ∧ f.parameters.length = g.parameters.length ∧
        f.parameters.map Param.type = g.parameters.map Param.type)) ∧
    (isCompatibleSignature
        { f with visibility := v1, stateMutability := m1, returnParameters := r1 }
        { g with visibility := v2, stateMutability := m2, returnParameters := r2 } =
      isCompatibleSignature f g) ∧
    (matchFrac interfaceFunctions implementationFunctions =
      (matchedCount interfaceFunctions implementationFunctions : ℚ) /
        ((max interfaceFunctions.length 1 : Nat) : ℚ)) ∧
    0 ≤ matchFrac interfaceFunctions implementationFunctions ∧
    matchFrac interfaceFunctions implementationFunctions ≤ 1 ∧
    (matchFrac interfaceFunctions implementationFunctions = 1 ↔
      (interfaceFunctions ≠ [] ∧ ∀ fi ∈ interfaceFunctions,
        ∃ gi ∈ implementationFunctions, isCompatibleSignature fi gi = true)) := by
  have hcompat : ∀ a b : Fn, isCompatibleSignature a b = true ↔
      (a.name = b.name ∧ a.parameters.length = b.parameters.length ∧
        a.parameters.map Param.type = b.parameters.map Param.type) := by
    intro a b
    unfold isCompatibleSignature
    rcases eq_or_ne a.name b.name with hn | hn
    · rw [if_neg (by simp [hn])]
      rcases eq_or_ne a.parameters.length b.parameters.length with hp | hp
      · rw [if_neg (by simp [hp])]
        rw [zip_types_iff _ _ hp]
        constructor
        · intro h
          exact ⟨hn, hp, h⟩
        · intro hr
          exact hr.2.2
      · rw [if_pos hp]
        simp only [Bool.false_eq_true, false_iff]
        intro hr
        exact hp hr.2.1
    · rw [if_pos hn]
      simp only [Bool.false_eq_true, false_iff]
      intro hr
      exact hn hr.1
  have hle : matchedCount interfaceFunctions implementationFunctions ≤
      interfaceFunctions.length := List.length_filterMap_le _ _
  have hdenom : (0 : ℚ) < ((max interfaceFunctions.length 1 : Nat) : ℚ) := by
    have : (1 : Nat) ≤ max interfaceFunctions.length 1 := le_max_right _ _
    exact_mod_cast Nat.lt_of_lt_of_le Nat.zero_lt_one this
  refine ⟨hcompat f g, rfl, rfl, ?_, ?_, ?_⟩
  · unfold matchFrac
    positivity
  · unfold matchFrac
    rw [div_le_one hdenom]
    have : matchedCount interfaceFunctions implementationFunctions ≤
        max interfaceFunctions.length 1 := le_trans hle (le_max_left _ _)
    exact_mod_cast this
  · unfold matchFrac
    rw [div_eq_one_iff_eq (ne_of_gt hdenom)]
    have hcast : ((matchedCount interfaceFunctions implementationFunctions : Nat) : ℚ) =
        ((max interfaceFunctions.length 1 : Nat) : ℚ) ↔
        matchedCount interfaceFunctions implementationFunctions =
          max interfaceFunctions.length 1 := Nat.cast_inj
    rw [hcast]
    constructor
    · intro h
      have hne : interfaceFunctions ≠ [] := by
        intro hnil
        rw [hnil] at h
        simp [matchedCount, matchFunctions] at h
      have hlen1 : 1 ≤ interfaceFunctions.length := by
        cases interfaceFunctions with
        | nil => exact absurd rfl hne
        | cons x xs => simp
      have hmax : max interfaceFunctions.length 1 = interfaceFunctions.length :=
        max_eq_left hlen1
      rw [hmax] at h
      refine ⟨hne, ?_⟩
      intro fi hfi
      have hall := (filterMap_length_eq_iff _ interfaceFunctions).mp h fi hfi
      have hmapSome : ∀ (o : Option Fn),
          ((o.map (fun gi => (fi, gi))).isSome) = o.isSome := by
        intro o
        cases o <;> rfl
      rw [hmapSome] at hall
      rcases List.find?_isSome.mp hall with ⟨gi, hgi, hpred⟩
      rw [Bool.and_eq_true] at hpred
      exact ⟨gi, hgi, hpred.2⟩
    · intro ⟨hne, hall⟩
      have hlen1 : 1 ≤ interfaceFunctions.length := by
        cases interfaceFunctions with
        | nil => exact absurd rfl hne
        | cons x xs => simp
      have hmax : max interfaceFunctions.length 1 = interfaceFunctions.length :=
        max_eq_left hlen1
      rw [hmax]
      apply (filterMap_length_eq_iff _ interfaceFunctions).mpr
      intro fi hfi
      rcases hall fi hfi with ⟨gi, hgi, hc⟩
      have hmapSome : ∀ (o : Option Fn),
          ((o.map (fun gi => (fi, gi))).isSome) = o.isSome := by
        intro o
        cases o <;> rfl
      rw [hmapSome]
      apply List.find?_isSome.mpr
      refine ⟨gi, hgi, ?_⟩
      rw [Bool.and_eq_true]
      refine ⟨?_, hc⟩
      have := ((hcompat fi gi).mp hc).1
      simp [this]

/-- Counterexample for C4 as stated: with zero interface members the ratio is
0 while the "every interface member has a counterpart" condition holds
vacuously, so the claimed iff with 1.0 fails. -/
theorem claim4_member_matching_counterexample :
    matchFrac [] [] = 0 ∧ ¬ (matchFrac [] [] = 1) ∧
    (∀ fi ∈ ([] : List Fn), ∃ gi ∈ ([] : List Fn), isCompatibleSignature fi gi = true) := by
  have h : matchFrac [] [] = 0 := by
    unfold matchFrac
    norm_num [matchedCount, matchFunctions]
  refine ⟨h, by rw [h]; norm_num, by simp⟩

/-- Characterization of the candidate-name loop: either every candidate yields
no binding, or the list splits around the first candidate that yields one. -/
theorem firstContractMatch_spec (cands : List String) (allFns iFns : List Fn) :
    ((∀ c ∈ cands, findContractByName c allFns iFns = none) ∧
      firstContractMatch cands allFns iFns = none) ∨
    (∃ pre c suf, cands = pre ++ c :: suf ∧
      (∀ c2 ∈ pre, findContractByName c2 allFns iFns = none) ∧
      findContractByName c allFns iFns ≠ none ∧
      firstContractMatch cands allFns iFns = findContractByName c allFns iFns) := by
  induction cands with
  | nil => exact Or.inl ⟨by simp, rfl⟩
  | cons c cs ih =>
    cases hc : findContractByName c allFns iFns with
    | some b =>
      refine Or.inr ⟨[], c, cs, by simp, by simp, by simp [hc], ?_⟩
      simp [firstContractMatch, hc]
    | none =>
      rcases ih with ⟨h1, h2⟩ | ⟨pre, d, suf, heq, hpre, hd, hres⟩
      · refine Or.inl ⟨?_, ?_⟩
        · intro x hx
          rcases List.mem_cons.mp hx with rfl | hx
          · exact hc
          · exact h1 x hx
        · simp [firstContractMatch, hc, h2]
      · refine Or.inr ⟨c :: pre, d, suf, by simp [heq], ?_, hd, ?_⟩
        · intro x hx
          rcases List.mem_cons.mp hx with rfl | hx
          · exact hc
          · exact hpre x hx
        · simp [firstContractMatch, hc, hres]

/-- A binding produced by `findContractByName` has a strictly positive match
ratio (it requires at least one matched member). -/
theorem findContractByName_pos (c : String) (allFns iFns : List Fn) (b : Binding)
    (h : findContractByName c allFns iFns = some b) : 0 < b.frac := by
  unfold findContractByName at h
  dsimp only at h
  split_ifs at h with h1 h2
  have hb := Option.some.inj h
  rw [← hb]
  refine div_pos ?_ ?_
  · exact_mod_cast h2
  · exact_mod_cast Nat.lt_of_lt_of_le Nat.zero_lt_one (le_max_right iFns.length 1)

/-- Invariants of the best-match fold of the global scan: the carried binding
always has its ratio as the carried best ratio, strictly above one half; the
best ratio grows monotonically; and every scanned non-skipped file group
scores at most the best ratio or at most one half. -/
theorem globalScan_fold (iFns allFns : List Fn) :
    ∀ (keys : List String) (acc : Option Binding × ℚ),
      (∀ b, acc.1 = some b → b.frac = acc.2 ∧ 1/2 < acc.2) →
      ((keys.foldl (globalScanStep iFns allFns) acc).1 = none →
        (keys.foldl (globalScanStep iFns allFns) acc) = acc) ∧
      (∀ b, (keys.foldl (globalScanStep iFns allFns) acc).1 = some b →
          b.frac = (keys.foldl (globalScanStep iFns allFns) acc).2 ∧
          1/2 < (keys.foldl (globalScanStep iFns allFns) acc).2) ∧
      acc.2 ≤ (keys.foldl (globalScanStep iFns allFns) acc).2 ∧
      (∀ k ∈ keys, globalScanSkips k = false →
        fileGroupRatio iFns allFns k ≤ (keys.foldl (globalScanStep iFns allFns) acc).2 ∨
        fileGroupRatio iFns allFns k ≤ 1/2) := by
  intro keys
  induction keys with
  | nil =>
    intro acc hacc
    exact ⟨fun _ => rfl, hacc, le_refl _, by simp⟩
  | cons k ks ih =>
    intro acc hacc
    by_cases hskip : globalScanSkips k = true
    · have hstep : globalScanStep iFns allFns acc k = acc := by
        unfold globalScanStep
        simp [hskip]
      rcases ih acc hacc with ⟨ihn, ihs, ihmono, ihall⟩
      refine ⟨?_, ?_, ?_, ?_⟩
      · simpa [List.foldl_cons, hstep] using ihn
      · simpa [List.foldl_cons, hstep] using ihs
      · simpa [List.foldl_cons, hstep] using ihmono
      · intro k2 hk2 hns
        rcases List.mem_cons.mp hk2 with rfl | hk2
        · rw [hns] at hskip
          exact absurd hskip (by simp)
        · simpa [List.foldl_cons, hstep] using ihall k2 hk2 hns
    · rw [Bool.not_eq_true] at hskip
      by_cases hcond : fileGroupRatio iFns allFns k > acc.2 ∧
          fileGroupRatio iFns allFns k > 1/2
      · have hstep : globalScanStep iFns allFns acc k =
            (some { contractName := replaceFirst k ".sol" "",
                    file := some k,
                    functions := globalScanGroup allFns k,
                    implementedFunctions := matchFunctions iFns (globalScanGroup allFns k),
                    frac := fileGroupRatio iFns allFns k },
             fileGroupRatio iFns allFns k) := by
          unfold globalScanStep
          rw [if_neg (by simp [hskip]), if_pos hcond]
        have hacc2 : ∀ b, (globalScanStep iFns allFns acc k).1 = some b →
            b.frac = (globalScanStep iFns allFns acc k).2 ∧
            1/2 < (globalScanStep iFns allFns acc k).2 := by
          intro b hb
          rw [hstep] at hb ⊢
          have := Option.some.inj hb
          constructor
          · rw [← this]
          · exact hcond.2
        rcases ih (globalScanStep iFns allFns acc k) hacc2 with ⟨ihn, ihs, ihmono, ihall⟩
        rw [hstep] at ihmono
        refine ⟨?_, ?_, ?_, ?_⟩
        · intro hnone
          exfalso
          rw [List.foldl_cons] at hnone
          have := (ih (globalScanStep iFns allFns acc k) hacc2).1 hnone
          rw [this, hstep] at hnone
          simp at hnone
        · simpa [List.foldl_cons] using ihs
        · rw [List.foldl_cons]
          calc acc.2 ≤ fileGroupRatio iFns allFns k := le_of_lt hcond.1
            _ ≤ _ := by simpa [hstep] using ihmono
        · intro k2 hk2 hns
          rcases List.mem_cons.mp hk2 with rfl | hk2
          · left
            rw [List.foldl_cons]
            simpa [hstep] using ihmono
          · simpa [List.foldl_cons] using ihall k2 hk2 hns
      · have hstep : globalScanStep iFns allFns acc k = acc := by
          unfold globalScanStep
          rw [if_neg (by simp [hskip]), if_neg hcond]
        rcases ih acc hacc with ⟨ihn, ihs, ihmono, ihall⟩
        refine ⟨?_, ?_, ?_, ?_⟩
        · simpa [List.foldl_cons, hstep] using ihn
        · simpa [List.foldl_cons, hstep] using ihs
        · simpa [List.foldl_cons, hstep] using ihmono
        · intro k2 hk2 hns
          rcases List.mem_cons.mp hk2 with rfl | hk2
          · rw [not_and_or] at hcond
            rcases hcond with hc1 | hc2
            · left
              rw [List.foldl_cons, hstep]
              exact le_trans (le_of_not_lt hc1) ihmono
            · right
              exact le_of_not_lt hc2
          · simpa [List.foldl_cons, hstep] using ihall k2 hk2 hns

/-- Claim C5: implementation resolution returns at most one binding per
interface per run and is greedy: candidate implementation names are tried in
order and the search stops at the first candidate whose match ratio is
strictly positive (a candidate yields a binding exactly when it scores
strictly positively), leaving later name candidates untried; the global scan
runs only when every name-heuristic candidate scores zero, and it accepts the
single best-scoring file only if its match ratio exceeds 0.5. -/
theorem claim5_greedy_resolution (interfaceName : String) (allFunctions : List Fn) :
    (findImplementation interfaceName allFunctions).toList.length ≤ 1 ∧
    ((∃ pre c suf, implCandidateNames interfaceName = pre ++ c :: suf ∧
        (∀ c2 ∈ pre, findContractByName c2 allFunctions
          (getInterfaceFunctions interfaceName allFunctions) = none) ∧
        findContractByName c allFunctions
          (getInterfaceFunctions interfaceName allFunctions) ≠ none ∧
        findImplementation interfaceName allFunctions =
          findContractByName c allFunctions
            (getInterfaceFunctions interfaceName allFunctions)) ∨
      ((∀ c ∈ implCandidateNames interfaceName, findContractByName c allFunctions
          (getInterfaceFunctions interfaceName allFunctions) = none) ∧
        findImplementation interfaceName allFunctions =
          findByFunctionMatching (getInterfaceFunctions interfaceName allFunctions)
            allFunctions)) ∧
    (∀ c iFns b, findContractByName c allFunctions iFns = some b → 0 < b.frac) ∧
    (∀ iFns b, findByFunctionMatching iFns allFunctions = some b →
      1/2 < b.frac ∧
      ∀ k ∈ globalScanKeys allFunctions, globalScanSkips k = false →
        fileGroupRatio iFns allFunctions k ≤ b.frac) := by
  refine ⟨?_, ?_, ?_, ?_⟩
  · cases findImplementation interfaceName allFunctions <;> simp
  · rcases firstContractMatch_spec (implCandidateNames interfaceName) allFunctions
      (getInterfaceFunctions interfaceName allFunctions) with
      ⟨hall, hnone⟩ | ⟨pre, c, suf, heq, hpre, hc, hres⟩
    · refine Or.inr ⟨hall, ?_⟩
      unfold findImplementation
      dsimp only
      rw [hnone]
    · refine Or.inl ⟨pre, c, suf, heq, hpre, hc, ?_⟩
      unfold findImplementation
      dsimp only
      rw [hres]
      cases hv : findContractByName c allFunctions
          (getInterfaceFunctions interfaceName allFunctions) with
      | none => exact absurd hv hc
      | some b => rfl
  · intro c iFns b hb
    exact findContractByName_pos c allFunctions iFns b hb
  · intro iFns b hb
    unfold findByFunctionMatching at hb
    by_cases hlen : iFns.length = 0
    · rw [if_pos hlen] at hb
      exact Option.noConfusion hb
    · rw [if_neg hlen] at hb
      have hfold := globalScan_fold iFns allFunctions (globalScanKeys allFunctions)
        ((none : Option Binding), (0 : ℚ)) (by intro b2 hb2; exact Option.noConfusion hb2)
      rcases hfold with ⟨_, hsome, _, hkeys⟩
      rcases hsome b hb with ⟨hfrac, hhalf⟩
      refine ⟨by rw [hfrac]; exact hhalf, ?_⟩
      intro k hk hns
      rcases hkeys k hk hns with hle | hle
      · rw [hfrac]
        exact hle
      · rw [hfrac]
        exact le_trans hle (le_of_lt hhalf)

/-- Witness for C5: a concrete name-heuristic binding has a positive ratio,
and the concrete resolution result goes through the first positive
candidate. -/
theorem claim5_greedy_resolution_witness :
    (∃ b, findContractByName "Oracle" exOracleFns
        (getInterfaceFunctions "IOracle" exOracleFns) = some b ∧ 0 < b.frac) ∧
    (∃ b, findImplementation "IOracle" exOracleFns = some b ∧ 0 < b.frac) := by
  have hs : (findContractByName "Oracle" exOracleFns
      (getInterfaceFunctions "IOracle" exOracleFns)).isSome = true := by decide
  rcases Option.isSome_iff_exists.mp hs with ⟨b0, hb0⟩
  constructor
  · exact ⟨b0, hb0, (claim5_greedy_resolution "IOracle" exOracleFns).2.2.1 "Oracle" _ b0 hb0⟩
  · rcases (claim5_greedy_resolution "IOracle" exOracleFns).2.1 with
      ⟨pre, c, suf, heq, hpre, hc, hres⟩ | ⟨hall, hres⟩
    · cases hv : findContractByName c exOracleFns
          (getInterfaceFunctions "IOracle" exOracleFns) with
      | none => exact absurd hv hc
      | some b =>
        refine ⟨b, ?_, (claim5_greedy_resolution "IOracle" exOracleFns).2.2.1 c _ b hv⟩
        rw [hres, hv]
    · exfalso
      have hmem : "Oracle" ∈ implCandidateNames "IOracle" := by decide
      have hnone := hall "Oracle" hmem
      rw [hnone] at hb0
      exact Option.noConfusion hb0

/-- A fold whose step always appends exactly one element only grows its
accumulator. -/
theorem foldl_snoc_spec {α : Type} (f : List IEdge → α → List IEdge)
    (hf : ∀ acc x, ∃ e, f acc x = acc ++ [e]) :
    ∀ (l : List α) (acc : List IEdge), ∃ s, l.foldl f acc = acc ++ s := by
  intro l
  induction l with
  | nil => exact fun acc => ⟨[], by simp⟩
  | cons x xs ih =>
    intro acc
    rcases hf acc x with ⟨e, he⟩
    rcases ih (f acc x) with ⟨s, hs⟩
    refine ⟨e :: s, ?_⟩
    rw [List.foldl_cons, hs, he]
    simp

/-- A fold whose step either keeps the accumulator or appends one element with
a fresh key only appends elements with keys new relative to the original
accumulator, pairwise distinct among themselves. -/
theorem foldAppendDedup_spec {α : Type} (f : List IEdge → α → List IEdge)
    (key : IEdge → String)
    (hf : ∀ acc x, f acc x = acc ∨
      ∃ e, f acc x = acc ++ [e] ∧ ∀ e0 ∈ acc, key e0 ≠ key e) :
    ∀ (l : List α) (acc : List IEdge),
      ∃ s, l.foldl f acc = acc ++ s ∧
        (∀ e ∈ s, ∀ e0 ∈ acc, key e0 ≠ key e) ∧
        (s.map key).Nodup := by
  intro l
  induction l with
  | nil => exact fun acc => ⟨[], by simp, by simp, by simp⟩
  | cons x xs ih =>
    intro acc
    rcases hf acc x with h | ⟨e, he, hnew⟩
    · rcases ih acc with ⟨s, h1, h2, h3⟩
      refine ⟨s, ?_, h2, h3⟩
      rw [List.foldl_cons, h, h1]
    · rcases ih (acc ++ [e]) with ⟨s, h1, h2, h3⟩
      refine ⟨e :: s, ?_, ?_, ?_⟩
      · rw [List.foldl_cons, he, h1]
        simp
      · intro e2 he2 e0 he0
        rcases List.mem_cons.mp he2 with rfl | he2
        · exact hnew e0 he0
        · exact h2 e2 he2 e0 (by simp [he0])
      · simp only [List.map_cons, List.nodup_cons]
        refine ⟨?_, h3⟩
        intro hmem
        rcases List.mem_map.mp hmem with ⟨e2, he2, hkey⟩
        exact (h2 e2 he2 e (by simp)) hkey.symm

/-- Claim C6 (amended): all four detection heuristics only append edges —
an edge found by an earlier pattern is never overridden or removed by a later
one, and the pattern-1 output is a prefix of the final edge list; patterns 2
and 3 skip any edge whose composite name is already present (so the edges they
add have fresh, pairwise-distinct composite names), and pattern 4 does the
same keyed by bare method name.  Pattern 1, however, appends unconditionally,
so the full output is not in general deduplicated by composite name. -/
theorem claim6_pattern_append_dedup (src : String) (fns : List Fn) (acc : List IEdge) :
    (∃ s1, findDirectInterfaceCalls src fns acc = acc ++ s1) ∧
    (∃ s2, findVariableInterfaceCalls src fns acc = acc ++ s2 ∧
      (∀ e ∈ s2, ∀ e0 ∈ acc, e0.name ≠ e.name) ∧ (s2.map IEdge.name).Nodup) ∧
    (∃ s3, findMethodCalls src fns acc = acc ++ s3 ∧
      (∀ e ∈ s3, ∀ e0 ∈ acc, e0.name ≠ e.name) ∧ (s3.map IEdge.name).Nodup) ∧
    (∃ s4, findByFunctionName src fns acc = acc ++ s4 ∧
      (∀ e ∈ s4, ∀ e0 ∈ acc, e0.methodName ≠ e.methodName) ∧
      (s4.map IEdge.methodName).Nodup) ∧
    (∃ s, extractInterfaceCalls src fns = findDirectInterfaceCalls src fns [] ++ s) := by
  have hdirect : ∀ acc2, ∃ s1, findDirectInterfaceCalls src fns acc2 = acc2 ++ s1 := by
    intro acc2
    unfold findDirectInterfaceCalls
    apply foldl_snoc_spec
    intro a pr
    exact ⟨_, rfl⟩
  have hvar : ∀ acc2, ∃ s2, findVariableInterfaceCalls src fns acc2 = acc2 ++ s2 ∧
      (∀ e ∈ s2, ∀ e0 ∈ acc2, e0.name ≠ e.name) ∧ (s2.map IEdge.name).Nodup := by
    intro acc2
    unfold findVariableInterfaceCalls
    apply foldAppendDedup_spec _ IEdge.name
    intro a pr
    unfold varCallStep
    cases hve : varCallEdge (scanDecls src.data.length src.data) fns pr with
    | none => exact Or.inl rfl
    | some e =>
      by_cases hany : a.any (fun call => call.name == e.name)
      · exact Or.inl (by simp [hany])
      · refine Or.inr ⟨e, by simp [hany], ?_⟩
        intro e0 he0
        rw [List.any_eq_true] at hany
        push_neg at hany
        have := hany e0 he0
        simpa using this
  have hmethod : ∀ acc2, ∃ s3, findMethodCalls src fns acc2 = acc2 ++ s3 ∧
      (∀ e ∈ s3, ∀ e0 ∈ acc2, e0.name ≠ e.name) ∧ (s3.map IEdge.name).Nodup := by
    intro acc2
    unfold findMethodCalls
    apply foldAppendDedup_spec _ IEdge.name
    intro a pr
    dsimp only
    by_cases hres : pr.1 ∈ reservedReceivers
    · exact Or.inl (by rw [if_pos hres])
    · rw [if_neg hres]
      cases hfind : fns.find? (fun f =>
        f.name == pr.2 &&
        (match fileTruthyStr f with
         | some file =>
           strContainsB (strToLowerB file) "interface" || strStartsWithB file "I" ||
             (match f.signature with
              | some sig => strContainsB sig "external"
              | none => false)
         | none => false)) with
      | none => exact Or.inl rfl
      | some fdef =>
        by_cases hany : a.any (fun call => call.name == pr.1 ++ "." ++ pr.2)
        · exact Or.inl (by simp [hany])
        · refine Or.inr ⟨⟨pr.1, pr.1 ++ "." ++ pr.2, pr.2, some fdef, "method"⟩,
            by simp [hany], ?_⟩
          intro e0 he0
          rw [List.any_eq_true] at hany
          push_neg at hany
          have := hany e0 he0
          simpa using this
  have hbyname : ∀ acc2, ∃ s4, findByFunctionName src fns acc2 = acc2 ++ s4 ∧
      (∀ e ∈ s4, ∀ e0 ∈ acc2, e0.methodName ≠ e.methodName) ∧
      (s4.map IEdge.methodName).Nodup := by
    intro acc2
    unfold findByFunctionName
    apply foldAppendDedup_spec _ IEdge.methodName
    intro a interfaceFunc
    dsimp only
    by_cases htest : funcCallPatternTest interfaceFunc.name src
    · rw [if_pos htest]
      by_cases hany : a.any (fun call => call.methodName == interfaceFunc.name)
      · exact Or.inl (by simp [hany])
      · refine Or.inr ⟨⟨replaceFirst (interfaceFunc.file.getD "") ".sol" "",
          replaceFirst (interfaceFunc.file.getD "") ".sol" "" ++ "." ++ interfaceFunc.name,
          interfaceFunc.name, some interfaceFunc, "byname"⟩, by simp [hany], ?_⟩
        intro e0 he0
        rw [List.any_eq_true] at hany
        push_neg at hany
        have := hany e0 he0
        simpa using this
    · exact Or.inl (by rw [if_neg htest])
  refine ⟨hdirect acc, hvar acc, hmethod acc, hbyname acc, ?_⟩
  unfold extractInterfaceCalls
  rcases hvar (findDirectInterfaceCalls src fns []) with ⟨s2, h2, _, _⟩
  rcases hmethod (findDirectInterfaceCalls src fns [] ++ s2) with ⟨s3, h3, _, _⟩
  rcases hbyname (findDirectInterfaceCalls src fns [] ++ s2 ++ s3) with ⟨s4, h4, _, _⟩
  refine ⟨s2 ++ s3 ++ s4, ?_⟩
  rw [h2, h3, h4]
  simp

set_option maxRecDepth 40000 in
/-- Counterexample for C6 as stated: a source text with the same direct-cast
call twice makes pattern 1 emit two edges with the same composite name, so the
output of `extractInterfaceCalls` is not deduplicated by composite name. -/
theorem claim6_pattern_dedup_counterexample :
    ((extractInterfaceCalls "IERC20(token).transfer(a); IERC20(token).transfer(b);" []).map
      IEdge.name) = ["IERC20.transfer", "IERC20.transfer"] ∧
    ¬ (((extractInterfaceCalls "IERC20(token).transfer(a); IERC20(token).transfer(b);" []).map
      IEdge.name).Nodup) := by
  exact ⟨by decide, by decide⟩

/-- Splitting at a dot is unambiguous when the left parts are dot-free. -/
theorem dot_split_inj (a : List Char) : ∀ (c : List Char) (b d : List Char),
    ('.' : Char) ∉ a → ('.' : Char) ∉ c →
    a ++ '.' :: b = c ++ '.' :: d → a = c ∧ b = d := by
  induction a with
  | nil =>
    intro c b d _ hc h
    cases c with
    | nil => simpa using h
    | cons x xs =>
      simp only [List.nil_append, List.cons_append, List.cons.injEq] at h
      exfalso
      apply hc
      rw [← h.1]
      exact List.mem_cons_self _ _
  | cons x xs ih =>
    intro c b d ha hc h
    cases c with
    | nil =>
      simp only [List.cons_append, List.nil_append, List.cons.injEq] at h
      exfalso
      apply ha
      rw [h.1]
      exact List.mem_cons_self _ _
    | cons y ys =>
      simp only [List.cons_append, List.cons.injEq] at h
      have ha2 : ('.' : Char) ∉ xs := fun hm => ha (List.mem_cons_of_mem _ hm)
      have hc2 : ('.' : Char) ∉ ys := fun hm => hc (List.mem_cons_of_mem _ hm)
      rcases ih ys b d ha2 hc2 h.2 with ⟨h1, h2⟩
      exact ⟨by rw [h.1, h1], h2⟩

/-- The type recorded for a variable comes from some declaration pair. -/
theorem lookupVarType_mem (decls : List (String × String)) (v t : String)
    (h : lookupVarType decls v = some t) : ∃ pr ∈ decls, pr.1 = t := by
  unfold lookupVarType at h
  cases hf : decls.reverse.find? (fun pr => pr.2 == v) with
  | none => rw [hf] at h; exact Option.noConfusion h
  | some pr =>
    rw [hf] at h
    have hmem : pr ∈ decls.reverse := List.mem_of_find?_eq_some hf
    rw [List.mem_reverse] at hmem
    refine ⟨pr, hmem, ?_⟩
    simpa using h

/-- Two pattern-2 edges with the same composite name are the same edge, as
long as no recorded type name contains a dot (true of the declaration scanner,
whose type capture is a `\w+` run). -/
theorem varCallEdge_inj (decls : List (String × String)) (fns : List Fn)
    (hnd : ∀ pr ∈ decls, ('.' : Char) ∉ pr.1.data)
    (p q : String × String) (e e2 : IEdge)
    (hp : varCallEdge decls fns p = some e) (hq : varCallEdge decls fns q = some e2)
    (hname : e.name = e2.name) : e = e2 := by
  unfold varCallEdge at hp hq
  by_cases h1 : p.1 ∈ reservedReceivers
  · rw [if_pos h1] at hp; exact Option.noConfusion hp
  rw [if_neg h1] at hp
  by_cases h2 : q.1 ∈ reservedReceivers
  · rw [if_pos h2] at hq; exact Option.noConfusion hq
  rw [if_neg h2] at hq
  cases hlp : lookupVarType decls p.1 with
  | none => rw [hlp] at hp; exact Option.noConfusion hp
  | some ip =>
    cases hlq : lookupVarType decls q.1 with
    | none => rw [hlq] at hq; exact Option.noConfusion hq
    | some iq =>
      rw [hlp] at hp
      rw [hlq] at hq
      have he := Option.some.inj hp
      have he2 := Option.some.inj hq
      have hnm : ip ++ "." ++ p.2 = iq ++ "." ++ q.2 := by
        have h3 : e.name = ip ++ "." ++ p.2 := by rw [← he]
        have h4 : e2.name = iq ++ "." ++ q.2 := by rw [← he2]
        rw [← h3, ← h4, hname]
      have hdata : ip.data ++ '.' :: p.2.data = iq.data ++ '.' :: q.2.data := by
        have := congrArg String.data hnm
        simpa [String.data_append] using this
      rcases lookupVarType_mem decls p.1 ip hlp with ⟨prp, hprp, hprp1⟩
      rcases lookupVarType_mem decls q.1 iq hlq with ⟨prq, hprq, hprq1⟩
      have hip : ('.' : Char) ∉ ip.data := by rw [← hprp1]; exact hnd prp hprp
      have hiq : ('.' : Char) ∉ iq.data := by rw [← hprq1]; exact hnd prq hprq
      rcases dot_split_inj ip.data iq.data p.2.data q.2.data hip hiq hdata with ⟨hi, hm⟩
      have hieq : ip = iq := congrArg String.mk hi
      have hmeq : p.2 = q.2 := congrArg String.mk hm
      rw [← he, ← he2, hieq, hmeq]

/-- The duplicate check of pattern 2 only depends on which edges are present,
so accumulators equal as sets step to accumulators equal as sets. -/
theorem varCallStep_toFinset_congr (decls : List (String × String)) (fns : List Fn)
    (acc1 acc2 : List IEdge) (hacc : acc1.toFinset = acc2.toFinset)
    (pr : String × String) :
    (varCallStep decls fns acc1 pr).toFinset = (varCallStep decls fns acc2 pr).toFinset := by
  unfold varCallStep
  cases hve : varCallEdge decls fns pr with
  | none => exact hacc
  | some e =>
    dsimp only
    have hiff : ∀ l : List IEdge, (l.any (fun call => call.name == e.name)) = true ↔
        ∃ x ∈ l.toFinset, x.name = e.name := by
      intro l
      rw [List.any_eq_true]
      simp [List.mem_toFinset]
    have hany : (acc1.any (fun call => call.name == e.name)) =
        (acc2.any (fun call => call.name == e.name)) := by
      cases h1 : acc1.any (fun call => call.name == e.name) with
      | true =>
        symm
        rw [hiff acc2, ← hacc]
        exact (hiff acc1).mp h1
      | false =>
        symm
        rw [← Bool.not_eq_true, hiff acc2, ← hacc, ← hiff acc1]
        simp [h1]
    rw [hany]
    cases h2 : acc2.any (fun call => call.name == e.name) with
    | true =>
      rw [if_pos rfl, if_pos rfl]
      exact hacc
    | false =>
      rw [if_neg (by simp), if_neg (by simp)]
      simp only [List.toFinset_append, hacc]

/-- Set-level congruence of the pattern-2 member-call fold. -/
theorem varCallFold_toFinset_congr (decls : List (String × String)) (fns : List Fn) :
    ∀ (calls : List (String × String)) (acc1 acc2 : List IEdge),
      acc1.toFinset = acc2.toFinset →
      (calls.foldl (varCallStep decls fns) acc1).toFinset =
      (calls.foldl (varCallStep decls fns) acc2).toFinset := by
  intro calls
  induction calls with
  | nil => exact fun acc1 acc2 h => h
  | cons pr prs ih =>
    intro acc1 acc2 h
    rw [List.foldl_cons, List.foldl_cons]
    exact ih _ _ (varCallStep_toFinset_congr decls fns acc1 acc2 h pr)

/-- Two adjacent member-call matches can be processed in either order without
changing the detected set (dot-free recorded type names make composite names
unambiguous). -/
theorem varCallStep_swap (decls : List (String × String)) (fns : List Fn)
    (hnd : ∀ pr ∈ decls, ('.' : Char) ∉ pr.1.data)
    (acc : List IEdge) (p q : String × String) :
    (varCallStep decls fns (varCallStep decls fns acc p) q).toFinset =
    (varCallStep decls fns (varCallStep decls fns acc q) p).toFinset := by
  by_cases hp0 : varCallEdge decls fns p = none
  · have h1 : ∀ a, varCallStep decls fns a p = a := by
      intro a
      unfold varCallStep
      rw [hp0]
    rw [h1, h1]
  · rcases Option.ne_none_iff_exists.mp hp0 with ⟨ep, hp⟩
    by_cases hq0 : varCallEdge decls fns q = none
    · have h1 : ∀ a, varCallStep decls fns a q = a := by
        intro a
        unfold varCallStep
        rw [hq0]
      rw [h1, h1]
    · rcases Option.ne_none_iff_exists.mp hq0 with ⟨eq2, hq⟩
      have hstep : ∀ (a : List IEdge) (z : IEdge) (pr : String × String),
          varCallEdge decls fns pr = some z →
          varCallStep decls fns a pr =
            (if a.any (fun call => call.name == z.name) then a else a ++ [z]) := by
        intro a z pr hz
        unfold varCallStep
        rw [hz]
      have hself : ∀ (a : List IEdge) (z : IEdge),
          ((a ++ [z]).any (fun call => call.name == z.name)) = true := by
        intro a z
        rw [List.any_eq_true]
        exact ⟨z, by simp⟩
      have hindep : ∀ (a : List IEdge) (z w : IEdge), z.name ≠ w.name →
          ((a ++ [z]).any (fun call => call.name == w.name)) =
          (a.any (fun call => call.name == w.name)) := by
        intro a z w hzw
        rw [List.any_append]
        have hz : ([z].any (fun call => call.name == w.name)) = false := by
          simp [hzw]
        rw [hz, Bool.or_false]
      by_cases hname : ep.name = eq2.name
      · have heq : ep = eq2 := varCallEdge_inj decls fns hnd p q ep eq2 hp.symm hq.symm hname
        subst heq
        by_cases hin : acc.any (fun call => call.name == ep.name) = true
        · have e1 : varCallStep decls fns acc p = acc := by
            rw [hstep acc ep p hp.symm, if_pos hin]
          have e2 : varCallStep decls fns acc q = acc := by
            rw [hstep acc ep q hq.symm, if_pos hin]
          rw [e1, e2, e1]
        · have e1 : varCallStep decls fns acc p = acc ++ [ep] := by
            rw [hstep acc ep p hp.symm, if_neg hin]
          have e2 : varCallStep decls fns acc q = acc ++ [ep] := by
            rw [hstep acc ep q hq.symm, if_neg hin]
          have e3 : varCallStep decls fns (acc ++ [ep]) q = acc ++ [ep] := by
            rw [hstep (acc ++ [ep]) ep q hq.symm, if_pos (hself acc ep)]
          have e4 : varCallStep decls fns (acc ++ [ep]) p = acc ++ [ep] := by
            rw [hstep (acc ++ [ep]) ep p hp.symm, if_pos (hself acc ep)]
          rw [e1, e3, e2, e4]
      · have hname2 : eq2.name ≠ ep.name := fun h => hname h.symm
        by_cases hinp : acc.any (fun call => call.name == ep.name) = true <;>
          by_cases hinq : acc.any (fun call => call.name == eq2.name) = true
        · have e1 : varCallStep decls fns acc p = acc := by
            rw [hstep acc ep p hp.symm, if_pos hinp]
          have e2 : varCallStep decls fns acc q = acc := by
            rw [hstep acc eq2 q hq.symm, if_pos hinq]
          rw [e1, e2, e1]
        · have e1 : varCallStep decls fns acc p = acc := by
            rw [hstep acc ep p hp.symm, if_pos hinp]
          have e2 : varCallStep decls fns acc q = acc ++ [eq2] := by
            rw [hstep acc eq2 q hq.symm, if_neg hinq]
          have e5 : varCallStep decls fns (acc ++ [eq2]) p = acc ++ [eq2] := by
            rw [hstep (acc ++ [eq2]) ep p hp.symm, hindep acc eq2 ep hname2, if_pos hinp]
          rw [e1, e2, e5]
        · have e1 : varCallStep decls fns acc p = acc ++ [ep] := by
            rw [hstep acc ep p hp.symm, if_neg hinp]
          have e2 : varCallStep decls fns acc q = acc := by
            rw [hstep acc eq2 q hq.symm, if_pos hinq]
          have e6 : varCallStep decls fns (acc ++ [ep]) q = acc ++ [ep] := by
            rw [hstep (acc ++ [ep]) eq2 q hq.symm, hindep acc ep eq2 hname, if_pos hinq]
          rw [e1, e6, e2, e1]
        · have e1 : varCallStep decls fns acc p = acc ++ [ep] := by
            rw [hstep acc ep p hp.symm, if_neg hinp]
          have e2 : varCallStep decls fns acc q = acc ++ [eq2] := by
            rw [hstep acc eq2 q hq.symm, if_neg hinq]
          have e7 : varCallStep decls fns (acc ++ [ep]) q = (acc ++ [ep]) ++ [eq2] := by
            rw [hstep (acc ++ [ep]) eq2 q hq.symm, hindep acc ep eq2 hname, if_neg hinq]
          have e8 : varCallStep decls fns (acc ++ [eq2]) p = (acc ++ [eq2]) ++ [ep] := by
            rw [hstep (acc ++ [eq2]) ep p hp.symm, hindep acc eq2 ep hname2, if_neg hinp]
          rw [e1, e7, e2, e8]
          ext x
          simp only [List.toFinset_append, List.mem_toFinset, Finset.mem_union,
            List.toFinset_cons, List.toFinset_nil, Finset.mem_insert,
            Finset.not_mem_empty, or_false]
          tauto

/-- Processing the member-call matches in any order yields the same set of
detected edges. -/
theorem varCallFold_perm (decls : List (String × String)) (fns : List Fn)
    (hnd : ∀ pr ∈ decls, ('.' : Char) ∉ pr.1.data)
    (calls1 calls2 : List (String × String)) (hperm : calls1.Perm calls2) :
    ∀ acc : List IEdge,
      (calls1.foldl (varCallStep decls fns) acc).toFinset =
      (calls2.foldl (varCallStep decls fns) acc).toFinset := by
  induction hperm with
  | nil => exact fun _ => rfl
  | cons x h ih =>
    intro acc
    rw [List.foldl_cons, List.foldl_cons]
    exact ih _
  | swap x y l =>
    intro acc
    rw [List.foldl_cons, List.foldl_cons, List.foldl_cons, List.foldl_cons]
    exact varCallFold_toFinset_congr decls fns l _ _ (varCallStep_swap decls fns hnd acc y x)
  | trans h1 h2 ih1 ih2 =>
    intro acc
    exact (ih1 acc).trans (ih2 acc)

set_option maxRecDepth 40000 in
/-- Claim C8: the declared-handle pattern records every handle declaration
from the whole text before scanning the whole text for member calls, so a call
textually preceding its handle's declaration still resolves through the
recorded mapping, and the set of detected calls does not depend on where the
declaration sits relative to the use: concretely, declaration-before-use and
use-before-declaration inputs produce identical output, and in general the
detected edge set is invariant under reordering the member-call matches (for
any recorded declaration map whose type names are dot-free, as the `\w+`
capture guarantees). -/
theorem claim8_declared_handle_order (src : String) (fns : List Fn) (acc : List IEdge) :
    (findVariableInterfaceCalls src fns acc =
      (scanMethodCalls src.data.length src.data).foldl
        (varCallStep (scanDecls src.data.length src.data) fns) acc) ∧
    (extractInterfaceCalls "IERC20 tok = IERC20(a); tok.transfer(b);" [] =
      extractInterfaceCalls "tok.transfer(b); IERC20 tok = IERC20(a);" []) ∧
    ((extractInterfaceCalls "tok.transfer(b); IERC20 tok = IERC20(a);" []).map
      IEdge.name) = ["IERC20.transfer"] ∧
    (∀ decls : List (String × String), (∀ pr ∈ decls, ('.' : Char) ∉ pr.1.data) →
      ∀ calls1 calls2 : List (String × String), calls1.Perm calls2 →
      ∀ acc2 : List IEdge,
        (calls1.foldl (varCallStep decls fns) acc2).toFinset =
        (calls2.foldl (varCallStep decls fns) acc2).toFinset) := by
  refine ⟨rfl, by decide, by decide, ?_⟩
  intro decls hnd calls1 calls2 hperm acc2
  exact varCallFold_perm decls fns hnd calls1 calls2 hperm acc2

/-- Witness for C8 at a concrete declaration map and a concrete swap of two
member-call matches. -/
theorem claim8_declared_handle_order_witness :
    (([("tok", "transfer"), ("oth", "er")].foldl
        (varCallStep [("IERC20", "tok")] []) []).toFinset =
      ([("oth", "er"), ("tok", "transfer")].foldl
        (varCallStep [("IERC20", "tok")] []) []).toFinset) := by
  exact (claim8_declared_handle_order "" [] []).2.2.2 [("IERC20", "tok")] (by decide)
    [("tok", "transfer"), ("oth", "er")] [("oth", "er"), ("tok", "transfer")]
    (List.Perm.swap _ _ _) []

/-- Membership after a JS-Set insertion. -/
theorem mem_addToSet_iff (s : List String) (x y : String) :
    y ∈ addToSet s x ↔ y ∈ s ∨ y = x := by
  unfold addToSet
  by_cases h : x ∈ s
  · rw [if_pos h]
    constructor
    · exact Or.inl
    · intro hy
      rcases hy with hy | rfl
      · exact hy
      · exact h
  · rw [if_neg h]
    simp

/-- A successful `tryFetchDependency` marks the path processed. -/
theorem tryFetchDependency_some_processed (fetch : String → Option FileData)
    (st : ResolverState) (p : String) (info : Option RepoInfo) (fd : FileData)
    (h : (tryFetchDependency fetch st p info).1 = some fd) :
    p ∈ (tryFetchDependency fetch st p info).2.1.processedDependencies := by
  unfold tryFetchDependency at h ⊢
  by_cases hmem : p ∈ st.processedDependencies ∨ p ∈ st.failedDependencies
  · rw [if_pos hmem] at h
    exact Option.noConfusion h
  · rw [if_neg hmem] at h ⊢
    by_cases hext : isExternalDependency p = true
    · rw [if_pos hext] at h
      exact Option.noConfusion h
    · rw [if_neg hext] at h ⊢
      by_cases hlen : (resolveDependencyPaths p info).length = 0
      · rw [if_pos hlen] at h
        exact Option.noConfusion h
      · rw [if_neg hlen] at h ⊢
        rcases hff : fetchFirst fetch (resolveDependencyPaths p info) with ⟨r, att⟩
        cases r with
        | none =>
          rw [hff] at h
          exact Option.noConfusion h
        | some pr2 =>
          obtain ⟨u, fdv⟩ := pr2
          exact mem_addToSet_self _ _

/-- A failing seed-file parse makes the whole initial analysis fail. -/
theorem parseSeedFiles_error (parse : String → Option (List Fn × List String)) :
    ∀ files : List FileData, (∃ f ∈ files, parse f.content = none) →
      ∀ r, parseSeedFiles parse files ≠ Except.ok r := by
  intro files
  induction files with
  | nil =>
    intro h
    rcases h with ⟨f, hf, _⟩
    exact absurd hf (List.not_mem_nil f)
  | cons f fs ih =>
    intro h r hok
    unfold parseSeedFiles at hok
    cases hp : parse f.content with
    | none =>
      rw [hp] at hok
      exact Except.noConfusion hok
    | some pr =>
      rw [hp] at hok
      rcases h with ⟨g, hg, hgnone⟩
      rcases List.mem_cons.mp hg with rfl | hg2
      · rw [hgnone] at hp
        exact Option.noConfusion hp
      · cases hrec : parseSeedFiles parse fs with
        | error e =>
          rw [hrec] at hok
          exact Except.noConfusion hok
        | ok rs =>
          exact ih ⟨g, hg2, hgnone⟩ rs hrec

/-- Claim C9: a ParseError on a fetched dependency file is non-fatal — the
fetch already marked the import path processed (resolved), the unparseable
file contributes no entities and no imports, later resolved files are still
ingested normally, and the run continues (by contrast, a ParseError on a seed
file makes `parseAndAnalyze` abort with an error). -/
theorem claim9_parse_error_nonfatal (fetch : String → Option FileData)
    (parse : String → Option (List Fn × List String)) (rst : ResolverState)
    (ast : AnalyzerSt) (p : String) (info : Option RepoInfo) (fd : FileData)
    (hfetch : (tryFetchDependency fetch rst p info).1 = some fd) :
    p ∈ (tryFetchDependency fetch rst p info).2.1.processedDependencies ∧
    (parse fd.content = none →
      (ingestResolvedFiles parse ast [fd]).functions = ast.functions ∧
      (ingestResolvedFiles parse ast [fd]).dependencies = ast.dependencies) ∧
    (∀ fd2 ents imps, parse fd.content = none → parse fd2.content = some (ents, imps) →
      basenameOf fd.filename ∉ ast.processedFiles →
      basenameOf fd2.filename ∉ ast.processedFiles →
      basenameOf fd2.filename ≠ basenameOf fd.filename →
      (ingestResolvedFiles parse ast [fd, fd2]).functions = ast.functions ++ ents) ∧
    (∀ files file, file ∈ files → parse file.content = none →
      ∀ r, parseAndAnalyzeSeed parse files ≠ Except.ok r) := by
  refine ⟨tryFetchDependency_some_processed fetch rst p info fd hfetch, ?_, ?_, ?_⟩
  · intro hparse
    unfold ingestResolvedFiles
    by_cases hb : basenameOf fd.filename ∈ ast.processedFiles
    · simp [hb]
    · simp [hb, hparse]
  · intro fd2 ents imps hparse hparse2 hb1 hb2 hneq
    unfold ingestResolvedFiles
    have hb2' : basenameOf fd2.filename ∉
        addToSet ast.processedFiles (basenameOf fd.filename) := by
      rw [mem_addToSet_iff]
      push_neg
      exact ⟨hb2, hneq⟩
    simp only [List.foldl_cons, List.foldl_nil, hb1, if_false, hb2']
    simp [hb1, hb2', hparse, hparse2]
  · intro files file hmem hnone r hok
    unfold parseAndAnalyzeSeed at hok
    cases hseed : parseSeedFiles parse files with
    | error e =>
      rw [hseed] at hok
      exact Except.noConfusion hok
    | ok parsed =>
      exact parseSeedFiles_error parse files ⟨file, hmem, hnone⟩ parsed hseed

set_option maxRecDepth 40000 in
/-- Witness for C9 at a concrete fetch/parse pair: the fetched-but-unparseable
dependency is marked processed and contributes nothing. -/
theorem claim9_parse_error_nonfatal_witness :
    "./Lib.sol" ∈ (tryFetchDependency (fun _ => some ⟨"!!", "Lib.sol", "x"⟩)
        ⟨[], [], []⟩ "./Lib.sol"
        (some ⟨"o", "r", "m", ""⟩)).2.1.processedDependencies ∧
    (ingestResolvedFiles (fun _ => (none : Option (List Fn × List String)))
        ⟨[], [], [], []⟩ [⟨"!!", "Lib.sol", "x"⟩]).functions = [] := by
  have h := claim9_parse_error_nonfatal (fun _ => some ⟨"!!", "Lib.sol", "x"⟩)
    (fun _ => (none : Option (List Fn × List String))) ⟨[], [], []⟩ ⟨[], [], [], []⟩
    "./Lib.sol" (some ⟨"o", "r", "m", ""⟩) ⟨"!!", "Lib.sol", "x"⟩ (by decide)
  exact ⟨h.1, (h.2.1 rfl).1⟩

/-- Zero-fuel (depth-exhausted) step of the builder. -/
theorem buildCallTreeGo_zero (heap allFns : List Fn) (f : Fn) (d : Nat) (vis : List String) :
    buildCallTreeGo heap allFns 0 f d vis = cutoffLeaf f.name d := rfl

/-- Positive-fuel step of the builder. -/
theorem buildCallTreeGo_succ (heap allFns : List Fn) (fuel : Nat) (f : Fn) (d : Nat)
    (vis : List String) :
    buildCallTreeGo heap allFns (fuel + 1) f d vis =
      if f.name ∈ vis then cutoffLeaf f.name d
      else
        CTNode.mk f.name f.signature f.file
          (if sourceTruthy f = true ∧ 0 < fuel then
            appendInterfaceCalls
              (staticChildrenWith heap
                (fun g => buildCallTreeGo heap allFns fuel g (d + 1) (f.name :: vis))
                (f.resolvedCalls.getD []) (d + 1))
              (extractInterfaceCalls (f.sourceCode.getD "") allFns) (d + 1)
           else
            staticChildrenWith heap
              (fun g => buildCallTreeGo heap allFns fuel g (d + 1) (f.name :: vis))
              (f.resolvedCalls.getD []) (d + 1))
          d false none none none none none := rfl

/-- The fuel encoding recovers the exact shape of the source recursion: cutoff
on `currentDepth >= maxDepth` or a visited name, else static expansion plus
interface augmentation under `currentDepth < maxDepth - 1`. -/
theorem buildCallTree_unfold (heap allFns : List Fn) (f : Fn) (maxD d : Nat)
    (vis : List String) :
    buildCallTree heap allFns f maxD d vis =
      if maxD ≤ d ∨ f.name ∈ vis then cutoffLeaf f.name d
      else
        CTNode.mk f.name f.signature f.file
          (if sourceTruthy f = true ∧ d + 1 < maxD then
            appendInterfaceCalls (staticChildren heap allFns f maxD d vis)
              (extractInterfaceCalls (f.sourceCode.getD "") allFns) (d + 1)
           else staticChildren heap allFns f maxD d vis)
          d false none none none none none := by
  rcases Nat.lt_or_ge d maxD with hlt | hge
  · have hk : maxD - d = (maxD - (d + 1)) + 1 := by omega
    show buildCallTreeGo heap allFns (maxD - d) f d vis = _
    rw [hk, buildCallTreeGo_succ]
    by_cases hv : f.name ∈ vis
    · rw [if_pos hv, if_pos (Or.inr hv)]
    · have hnor : ¬ (maxD ≤ d ∨ f.name ∈ vis) := by
        push_neg
        exact ⟨by omega, hv⟩
      rw [if_neg hv, if_neg hnor]
      by_cases hcond : sourceTruthy f = true ∧ d + 1 < maxD
      · have h1 : sourceTruthy f = true ∧ 0 < maxD - (d + 1) := ⟨hcond.1, by omega⟩
        rw [if_pos h1, if_pos hcond]
        rfl
      · have h1 : ¬ (sourceTruthy f = true ∧ 0 < maxD - (d + 1)) := by
          intro hc
          exact hcond ⟨hc.1, by omega⟩
        rw [if_neg h1, if_neg hcond]
        rfl
  · have hk : maxD - d = 0 := by omega
    show buildCallTreeGo heap allFns (maxD - d) f d vis = _
    rw [hk, buildCallTreeGo_zero, if_pos (Or.inl hge)]

/-- The unfolding of `CTNode.allNodes` on a constructor. -/
theorem allNodes_mk (n : String) (s f : Option String) (c : List CTNode) (d : Nat)
    (e : Bool) (t i p : Option String) (a : Option Nat) (df : Option Fn) :
    (CTNode.mk n s f c d e t i p a df).allNodes =
      CTNode.mk n s f c d e t i p a df :: CTNode.listNodes c := by
  rw [CTNode.allNodes]

/-- Membership in the nodes of a forest. -/
theorem mem_listNodes_iff (l : List CTNode) (n : CTNode) :
    n ∈ CTNode.listNodes l ↔ ∃ x ∈ l, n ∈ x.allNodes := by
  induction l with
  | nil =>
    rw [CTNode.listNodes]
    simp
  | cons x xs ih =>
    rw [CTNode.listNodes]
    simp only [List.mem_append, ih, List.mem_cons]
    constructor
    · intro h
      rcases h with h | ⟨y, hy, hn⟩
      · exact ⟨x, Or.inl rfl, h⟩
      · exact ⟨y, Or.inr hy, hn⟩
    · intro ⟨y, hy, hn⟩
      rcases hy with rfl | hy
      · exact Or.inl hn
      · exact Or.inr ⟨y, hy, hn⟩

/-- The depth of a built node is the depth it was called at. -/
theorem buildCallTreeGo_depth (heap allFns : List Fn) (fuel : Nat) (f : Fn) (d : Nat)
    (vis : List String) : (buildCallTreeGo heap allFns fuel f d vis).depth = d := by
  cases fuel with
  | zero => rfl
  | succ fuel =>
    rw [buildCallTreeGo_succ]
    by_cases hv : f.name ∈ vis
    · rw [if_pos hv]
      rfl
    · rw [if_neg hv]
      rfl

/-- A built node is never interface-tagged (only appended children are). -/
theorem buildCallTreeGo_ntype (heap allFns : List Fn) (fuel : Nat) (f : Fn) (d : Nat)
    (vis : List String) : (buildCallTreeGo heap allFns fuel f d vis).ntype = none := by
  cases fuel with
  | zero => rfl
  | succ fuel =>
    rw [buildCallTreeGo_succ]
    by_cases hv : f.name ∈ vis
    · rw [if_pos hv]
      rfl
    · rw [if_neg hv]
      rfl

/-- Shape of the members of the static-children list. -/
theorem mem_staticChildrenWith (heap : List Fn) (recur : Fn → CTNode) (calls : List RCall)
    (cd : Nat) (x : CTNode) (hx : x ∈ staticChildrenWith heap recur calls cd) :
    (∃ g, x = recur g) ∨ (∃ call, x = externalLeaf call cd) := by
  unfold staticChildrenWith at hx
  rcases List.mem_map.mp hx with ⟨call, _, hcall⟩
  rcases hmatch : call.isExternal with _ | _ <;>
    rcases hdef : call.definition.bind heap.get? with _ | g <;>
    rw [hmatch, hdef] at hcall
  · exact Or.inr ⟨call, hcall.symm⟩
  · exact Or.inl ⟨g, hcall.symm⟩
  · exact Or.inr ⟨call, hcall.symm⟩
  · exact Or.inr ⟨call, hcall.symm⟩

/-- The interface-augmentation fold only appends interface children built from
the detected edges, each with a composite name absent from the existing
children. -/
theorem appendInterfaceCalls_spec (calls : List CTNode) (edges : List IEdge) (depth : Nat) :
    ∃ extra, appendInterfaceCalls calls edges depth = calls ++ extra ∧
      ∀ x ∈ extra, (∃ e ∈ edges, x = interfaceChild e depth) ∧
        ∀ y ∈ calls, y.name ≠ x.name := by
  unfold appendInterfaceCalls
  induction edges generalizing calls with
  | nil => exact ⟨[], by simp, by simp⟩
  | cons e es ih =>
    rw [List.foldl_cons]
    by_cases hany : calls.any (fun call => call.name == e.name) = true
    · rw [if_pos hany]
      rcases ih calls with ⟨extra, h1, h2⟩
      refine ⟨extra, h1, ?_⟩
      intro x hx
      rcases h2 x hx with ⟨⟨e2, he2, hxe⟩, hnames⟩
      exact ⟨⟨e2, List.mem_cons_of_mem _ he2, hxe⟩, hnames⟩
    · rw [if_neg hany]
      rcases ih (calls ++ [interfaceChild e depth]) with ⟨extra, h1, h2⟩
      refine ⟨interfaceChild e depth :: extra, ?_, ?_⟩
      · rw [h1]
        simp
      · intro x hx
        rcases List.mem_cons.mp hx with rfl | hx
        · refine ⟨⟨e, List.mem_cons_self _ _, rfl⟩, ?_⟩
          intro y hy
          rw [List.any_eq_true] at hany
          push_neg at hany
          have := hany y hy
          have hname : (interfaceChild e depth).name = e.name := rfl
          rw [hname]
          simpa using this
        · rcases h2 x hx with ⟨⟨e2, he2, hxe⟩, hnames⟩
          refine ⟨⟨e2, List.mem_cons_of_mem _ he2, hxe⟩, ?_⟩
          intro y hy
          exact hnames y (by simp [hy])

/-- Pointwise reading of `childDepthListB`. -/
theorem childDepthListB_iff (d1 : Nat) (l : List CTNode) :
    childDepthListB d1 l = true ↔ ∀ x ∈ l, x.depth = d1 ∧ childDepthB x = true := by
  induction l with
  | nil =>
    rw [childDepthListB]
    simp
  | cons x xs ih =>
    rw [childDepthListB]
    simp only [Bool.and_eq_true, beq_iff_eq, ih, List.mem_cons]
    constructor
    · intro ⟨⟨h1, h2⟩, h3⟩ y hy
      rcases hy with rfl | hy
      · exact ⟨h1, h2⟩
      · exact h3 y hy
    · intro h
      exact ⟨h x (Or.inl rfl), fun y hy => h y (Or.inr hy)⟩

/-- Pointwise reading of `noRepeatListB`. -/
theorem noRepeatListB_iff (s : List String) (l : List CTNode) :
    noRepeatListB s l = true ↔ ∀ x ∈ l, noRepeatB s x = true := by
  induction l with
  | nil =>
    rw [noRepeatListB]
    simp
  | cons x xs ih =>
    rw [noRepeatListB]
    simp only [Bool.and_eq_true, ih, List.mem_cons]
    constructor
    · intro ⟨h1, h2⟩ y hy
      rcases hy with rfl | hy
      · exact h1
      · exact h2 y hy
    · intro h
      exact ⟨h x (Or.inl rfl), fun y hy => h y (Or.inr hy)⟩

/-- Any node whose `calls` list is empty satisfies the path discipline. -/
theorem noRepeatB_childless (s : List String) (n : String) (sig file : Option String)
    (d : Nat) (e : Bool) (t i p : Option String) (a : Option Nat) (df : Option Fn) :
    noRepeatB s (CTNode.mk n sig file [] d e t i p a df) = true := by
  rw [noRepeatB]
  rcases hmem : decide (n ∈ s) with _ | _
  · simp only [List.isEmpty_nil]
    rw [noRepeatListB]
    simp [of_decide_eq_false hmem]
  · simp only [List.isEmpty_nil]
    rw [noRepeatListB]
    simp [of_decide_eq_true hmem]

/-- Every node of a built tree sits within the fuel budget above the call
depth. -/
theorem buildCallTreeGo_depth_le (heap allFns : List Fn) :
    ∀ (fuel : Nat) (f : Fn) (d : Nat) (vis : List String),
      ∀ n ∈ (buildCallTreeGo heap allFns fuel f d vis).allNodes, n.depth ≤ d + fuel := by
  intro fuel
  induction fuel with
  | zero =>
    intro f d vis n hn
    rw [buildCallTreeGo_zero] at hn
    rw [cutoffLeaf, allNodes_mk] at hn
    rcases List.mem_cons.mp hn with rfl | hn
    · simp [CTNode.depth]
    · rw [CTNode.listNodes] at hn
      exact absurd hn (List.not_mem_nil n)
  | succ fuel ih =>
    intro f d vis n hn
    rw [buildCallTreeGo_succ] at hn
    by_cases hv : f.name ∈ vis
    · rw [if_pos hv, cutoffLeaf, allNodes_mk] at hn
      rcases List.mem_cons.mp hn with rfl | hn
      · simp [CTNode.depth]
      · rw [CTNode.listNodes] at hn
        exact absurd hn (List.not_mem_nil n)
    · rw [if_neg hv, allNodes_mk] at hn
      rcases List.mem_cons.mp hn with rfl | hn
      · simp [CTNode.depth]
      · rw [mem_listNodes_iff] at hn
        rcases hn with ⟨x, hx, hnx⟩
        have hxin : x ∈ staticChildrenWith heap
            (fun g => buildCallTreeGo heap allFns fuel g (d + 1) (f.name :: vis))
            (f.resolvedCalls.getD []) (d + 1) ∨
            (∃ e2, x = interfaceChild e2 (d + 1)) := by
          by_cases hcond : sourceTruthy f = true ∧ 0 < fuel
          · rw [if_pos hcond] at hx
            rcases appendInterfaceCalls_spec
              (staticChildrenWith heap
                (fun g => buildCallTreeGo heap allFns fuel g (d + 1) (f.name :: vis))
                (f.resolvedCalls.getD []) (d + 1))
              (extractInterfaceCalls (f.sourceCode.getD "") allFns) (d + 1) with
              ⟨extra, heq, hex⟩
            rw [heq] at hx
            rcases List.mem_append.mp hx with hx | hx
            · exact Or.inl hx
            · rcases hex x hx with ⟨⟨e2, _, hxe⟩, _⟩
              exact Or.inr ⟨e2, hxe⟩
          · rw [if_neg hcond] at hx
            exact Or.inl hx
        rcases hxin with hx2 | ⟨e2, rfl⟩
        · rcases mem_staticChildrenWith heap _ _ _ x hx2 with ⟨g, rfl⟩ | ⟨call, rfl⟩
          · have := ih g (d + 1) (f.name :: vis) n hnx
            omega
          · rw [externalLeaf, allNodes_mk] at hnx
            rcases List.mem_cons.mp hnx with rfl | hnx
            · simp only [CTNode.depth]
              omega
            · rw [CTNode.listNodes] at hnx
              exact absurd hnx (List.not_mem_nil n)
        · rw [interfaceChild, allNodes_mk] at hnx
          rcases List.mem_cons.mp hnx with rfl | hnx
          · simp only [CTNode.depth]
            omega
          · rw [CTNode.listNodes] at hnx
            exact absurd hnx (List.not_mem_nil n)

/-- Every child of every node of a built tree sits exactly one level below its
parent. -/
theorem buildCallTreeGo_childDepth (heap allFns : List Fn) :
    ∀ (fuel : Nat) (f : Fn) (d : Nat) (vis : List String),
      childDepthB (buildCallTreeGo heap allFns fuel f d vis) = true := by
  intro fuel
  induction fuel with
  | zero =>
    intro f d vis
    rw [buildCallTreeGo_zero, cutoffLeaf, childDepthB, childDepthListB]
  | succ fuel ih =>
    intro f d vis
    rw [buildCallTreeGo_succ]
    by_cases hv : f.name ∈ vis
    · rw [if_pos hv, cutoffLeaf, childDepthB, childDepthListB]
    · rw [if_neg hv, childDepthB, childDepthListB_iff]
      intro x hx
      have hxin : x ∈ staticChildrenWith heap
          (fun g => buildCallTreeGo heap allFns fuel g (d + 1) (f.name :: vis))
          (f.resolvedCalls.getD []) (d + 1) ∨
          (∃ e2, x = interfaceChild e2 (d + 1)) := by
        by_cases hcond : sourceTruthy f = true ∧ 0 < fuel
        · rw [if_pos hcond] at hx
          rcases appendInterfaceCalls_spec
            (staticChildrenWith heap
              (fun g => buildCallTreeGo heap allFns fuel g (d + 1) (f.name :: vis))
              (f.resolvedCalls.getD []) (d + 1))
            (extractInterfaceCalls (f.sourceCode.getD "") allFns) (d + 1) with
            ⟨extra, heq, hex⟩
          rw [heq] at hx
          rcases List.mem_append.mp hx with hx | hx
          · exact Or.inl hx
          · rcases hex x hx with ⟨⟨e2, _, hxe⟩, _⟩
            exact Or.inr ⟨e2, hxe⟩
        · rw [if_neg hcond] at hx
          exact Or.inl hx
      rcases hxin with hx2 | ⟨e2, rfl⟩
      · rcases mem_staticChildrenWith heap _ _ _ x hx2 with ⟨g, rfl⟩ | ⟨call, rfl⟩
        · exact ⟨buildCallTreeGo_depth heap allFns fuel g (d + 1) (f.name :: vis), ih g (d + 1) (f.name :: vis)⟩
        · exact ⟨rfl, by rw [externalLeaf, childDepthB, childDepthListB]⟩
      · exact ⟨rfl, by rw [interfaceChild, childDepthB, childDepthListB]⟩

/-- The path discipline of the builder: relative to the visited set it is
called with, a repeated name can only be a childless cutoff leaf. -/
theorem buildCallTreeGo_noRepeat (heap allFns : List Fn) :
    ∀ (fuel : Nat) (f : Fn) (d : Nat) (vis : List String),
      noRepeatB vis (buildCallTreeGo heap allFns fuel f d vis) = true := by
  intro fuel
  induction fuel with
  | zero =>
    intro f d vis
    rw [buildCallTreeGo_zero, cutoffLeaf]
    exact noRepeatB_childless _ _ _ _ _ _ _ _ _ _ _
  | succ fuel ih =>
    intro f d vis
    rw [buildCallTreeGo_succ]
    by_cases hv : f.name ∈ vis
    · rw [if_pos hv, cutoffLeaf]
      exact noRepeatB_childless _ _ _ _ _ _ _ _ _ _ _
    · rw [if_neg hv, noRepeatB]
      have hfirst : (if f.name ∈ vis then
          (if sourceTruthy f = true ∧ 0 < fuel then
            appendInterfaceCalls
              (staticChildrenWith heap
                (fun g => buildCallTreeGo heap allFns fuel g (d + 1) (f.name :: vis))
                (f.resolvedCalls.getD []) (d + 1))
              (extractInterfaceCalls (f.sourceCode.getD "") allFns) (d + 1)
           else
            staticChildrenWith heap
              (fun g => buildCallTreeGo heap allFns fuel g (d + 1) (f.name :: vis))
              (f.resolvedCalls.getD []) (d + 1)).isEmpty
          else true) = true := by
        rw [if_neg hv]
      rw [hfirst, Bool.true_and, noRepeatListB_iff]
      intro x hx
      have hxin : x ∈ staticChildrenWith heap
          (fun g => buildCallTreeGo heap allFns fuel g (d + 1) (f.name :: vis))
          (f.resolvedCalls.getD []) (d + 1) ∨
          (∃ e2, x = interfaceChild e2 (d + 1)) := by
        by_cases hcond : sourceTruthy f = true ∧ 0 < fuel
        · rw [if_pos hcond] at hx
          rcases appendInterfaceCalls_spec
            (staticChildrenWith heap
              (fun g => buildCallTreeGo heap allFns fuel g (d + 1) (f.name :: vis))
              (f.resolvedCalls.getD []) (d + 1))
            (extractInterfaceCalls (f.sourceCode.getD "") allFns) (d + 1) with
            ⟨extra, heq, hex⟩
          rw [heq] at hx
          rcases List.mem_append.mp hx with hx | hx
          · exact Or.inl hx
          · rcases hex x hx with ⟨⟨e2, _, hxe⟩, _⟩
            exact Or.inr ⟨e2, hxe⟩
        · rw [if_neg hcond] at hx
          exact Or.inl hx
      rcases hxin with hx2 | ⟨e2, rfl⟩
      · rcases mem_staticChildrenWith heap _ _ _ x hx2 with ⟨g, rfl⟩ | ⟨call, rfl⟩
        · exact ih g (d + 1) (f.name :: vis)
        · rw [externalLeaf]
          exact noRepeatB_childless _ _ _ _ _ _ _ _ _ _ _
      · rw [interfaceChild]
        exact noRepeatB_childless _ _ _ _ _ _ _ _ _ _ _

/-- Claim C1: in every call tree returned by `buildCallTree` (top-level call,
depth 0, empty visited set) each child sits exactly one level below its parent
(so depth is non-decreasing from the root to every descendant), no node depth
exceeds the configured maximum, expansion stops exactly on `depth ≥ maxDepth`
or a repeated identity in the path's visited set by emitting a childless leaf,
and therefore an identity can repeat along a root-to-leaf path only as its
terminal childless leaf; in particular for calls `A→B→A` built from `A` with
`maxDepth = 5` the second occurrence of `A` (under `B`) is a leaf with zero
children at depth 2. -/
theorem claim1_call_tree_invariants :
    (∀ (heap allFns : List Fn) (f : Fn) (maxD d : Nat) (vis : List String),
      maxD ≤ d ∨ f.name ∈ vis →
      buildCallTree heap allFns f maxD d vis = cutoffLeaf f.name d) ∧
    (∀ (heap allFns : List Fn) (f : Fn) (maxD : Nat),
      (buildCallTree heap allFns f maxD 0 []).depth = 0 ∧
      childDepthB (buildCallTree heap allFns f maxD 0 []) = true ∧
      (∀ n ∈ (buildCallTree heap allFns f maxD 0 []).allNodes, n.depth ≤ maxD) ∧
      noRepeatB [] (buildCallTree heap allFns f maxD 0 []) = true) ∧
    (((buildCallTree exHeap exHeap exA 5 0 []).calls.map CTNode.name) = ["B"] ∧
      (((buildCallTree exHeap exHeap exA 5 0 []).calls.headD
          (cutoffLeaf "" 0)).calls.map
        (fun c => (c.name, c.depth, c.calls.length))) = [("A", 2, 0)]) := by
  refine ⟨?_, ?_, by decide, by decide⟩
  · intro heap allFns f maxD d vis h
    rw [buildCallTree_unfold, if_pos h]
  · intro heap allFns f maxD
    refine ⟨buildCallTreeGo_depth heap allFns (maxD - 0) f 0 [],
      buildCallTreeGo_childDepth heap allFns (maxD - 0) f 0 [], ?_,
      buildCallTreeGo_noRepeat heap allFns (maxD - 0) f 0 []⟩
    intro n hn
    have := buildCallTreeGo_depth_le heap allFns (maxD - 0) f 0 [] n hn
    omega

/-- Witness for C1: the depth cutoff at a concrete input. -/
theorem claim1_call_tree_invariants_witness :
    buildCallTree exHeap exHeap exA 3 3 [] = cutoffLeaf "A" 3 :=
  claim1_call_tree_invariants.1 exHeap exHeap exA 3 3 [] (Or.inl (le_refl 3))

/-- Claim C7 (amended): at every invocation that actually expands a node
(depth below the maximum and identity not in the path's visited set),
`buildCallTree` runs the Interface Call Detector exactly when
`depth < maxDepth − 1` and the entity carries source text; each appended
interface-tagged child comes from a detected edge whose composite name is not
among the statically resolved children — a call already represented as a
static child never also appears as an interface-tagged node with the same
composite name — and the statically resolved children themselves are never
interface-tagged. -/
theorem claim7_interface_augmentation (heap allFns : List Fn) (f : Fn) (maxD d : Nat)
    (vis : List String) (hexp : ¬ (maxD ≤ d ∨ f.name ∈ vis)) :
    (sourceTruthy f = true ∧ d + 1 < maxD →
      (buildCallTree heap allFns f maxD d vis).calls =
        appendInterfaceCalls (staticChildren heap allFns f maxD d vis)
          (extractInterfaceCalls (f.sourceCode.getD "") allFns) (d + 1)) ∧
    (¬ (sourceTruthy f = true ∧ d + 1 < maxD) →
      (buildCallTree heap allFns f maxD d vis).calls =
        staticChildren heap allFns f maxD d vis) ∧
    (∀ c ∈ (buildCallTree heap allFns f maxD d vis).calls,
      c.ntype = some "interface" →
      (∃ e ∈ extractInterfaceCalls (f.sourceCode.getD "") allFns,
        c = interfaceChild e (d + 1)) ∧
      ∀ s ∈ staticChildren heap allFns f maxD d vis, s.name ≠ c.name) ∧
    (∀ s ∈ staticChildren heap allFns f maxD d vis, s.ntype ≠ some "interface") := by
  have hstatic : ∀ s ∈ staticChildren heap allFns f maxD d vis,
      s.ntype ≠ some "interface" := by
    intro s hs
    rcases mem_staticChildrenWith heap _ _ _ s hs with ⟨g, rfl⟩ | ⟨call, rfl⟩
    · show (buildCallTree heap allFns g maxD (d + 1) (f.name :: vis)).ntype ≠ _
      rw [show (buildCallTree heap allFns g maxD (d + 1) (f.name :: vis)).ntype = none from
        buildCallTreeGo_ntype heap allFns _ g (d + 1) (f.name :: vis)]
      exact Option.noConfusion
    · rw [show (externalLeaf call (d + 1)).ntype = none from rfl]
      exact Option.noConfusion
  have hcalls : (buildCallTree heap allFns f maxD d vis).calls =
      (if sourceTruthy f = true ∧ d + 1 < maxD then
        appendInterfaceCalls (staticChildren heap allFns f maxD d vis)
          (extractInterfaceCalls (f.sourceCode.getD "") allFns) (d + 1)
       else staticChildren heap allFns f maxD d vis) := by
    rw [buildCallTree_unfold, if_neg hexp]
    rfl
  refine ⟨?_, ?_, ?_, hstatic⟩
  · intro hcond
    rw [hcalls, if_pos hcond]
  · intro hcond
    rw [hcalls, if_neg hcond]
  · intro c hc hiface
    rw [hcalls] at hc
    by_cases hcond : sourceTruthy f = true ∧ d + 1 < maxD
    · rw [if_pos hcond] at hc
      rcases appendInterfaceCalls_spec (staticChildren heap allFns f maxD d vis)
        (extractInterfaceCalls (f.sourceCode.getD "") allFns) (d + 1) with
        ⟨extra, heq, hex⟩
      rw [heq] at hc
      rcases List.mem_append.mp hc with hc | hc
      · exact absurd hiface (hstatic c hc)
      · rcases hex c hc with ⟨⟨e, he, hce⟩, hnames⟩
        exact ⟨⟨e, he, hce⟩, fun s hs => hnames s hs⟩
    · rw [if_neg hcond] at hc
      exact absurd hiface (hstatic c hc)

/-- Witness for C7 at a concrete expanded node without source text: the
children are exactly the statically resolved ones. -/
theorem claim7_interface_augmentation_witness :
    (buildCallTree exHeap exHeap exA 5 0 []).calls =
      staticChildren exHeap exHeap exA 5 0 [] :=
  (claim7_interface_augmentation exHeap exHeap exA 5 0 [] (by decide)).2.1 (by decide)

set_option maxRecDepth 40000 in
/-- Counterexample for C7 as stated: for the cyclic entity `A2`, which carries
source text with a detectable interface call, the inner invocation at depth 2
with `maxDepth = 5` satisfies "depth < maxDepth − 1 and the entity carries
source text", yet the detector is not run — the node is a cycle-cutoff leaf
with no children — while the root invocation of the same entity does append
the interface child. -/
theorem claim7_interface_augmentation_counterexample :
    sourceTruthy cyA = true ∧ 2 + 1 < 5 ∧
    extractInterfaceCalls (cyA.sourceCode.getD "") cyHeap ≠ [] ∧
    buildCallTree cyHeap cyHeap cyA 5 2 ["B2", "A2"] = cutoffLeaf "A2" 2 ∧
    ((buildCallTree cyHeap cyHeap cyA 5 0 []).calls.map CTNode.name) =
      ["B2", "IFoo.bar"] ∧
    (((buildCallTree cyHeap cyHeap cyA 5 0 []).calls.headD
        (cutoffLeaf "" 0)).calls.map
      (fun c => (c.name, c.depth, c.calls.length))) = [("A2", 2, 0)] := by
  refine ⟨by decide, by decide, by decide, ?_, by decide, by decide⟩
  rw [buildCallTree_unfold, if_pos (Or.inr (by decide))]
  rfl

/-- Witness for C4 at concrete members: the matching rule and the full-match
ratio at a non-empty interface member list. -/
theorem claim4_member_matching_witness :
    isCompatibleSignature exOracleGet exOracleImpl = true ∧
    matchFrac [exOracleGet] [exOracleImpl] = 1 := by
  constructor
  · exact (claim4_member_matching [] [] exOracleGet exOracleImpl
      none none [] none none []).1.mpr ⟨rfl, rfl, rfl⟩
  · exact (claim4_member_matching [exOracleGet] [exOracleImpl] exOracleGet exOracleImpl
      none none [] none none []).2.2.2.2.2.mpr ⟨by decide, by decide⟩

/-- Witness for C6 at a concrete text: the pattern-1 output is a prefix of the
final edge list. -/
theorem claim6_pattern_append_dedup_witness :
    ∃ s, extractInterfaceCalls "IERC20 tok = IERC20(a);" [] =
      findDirectInterfaceCalls "IERC20 tok = IERC20(a);" [] [] ++ s :=
  (claim6_pattern_append_dedup "IERC20 tok = IERC20(a);" [] []).2.2.2.2
